import Mathlib

/-!
Verification of the crossword-solver core (flask-backend): a shallow
embedding of the dictionary helper, the generator's fit test and grid
numbering, and the DFS / A* solver substrate, with theorems checking the
natural-language specification against the code.

Grids are lists of rows of characters ('.' is the EMPTY sentinel), words
and other Python strings are lists of characters, and Python dictionaries
that preserve insertion order are association lists.
-/

namespace CW

/-- Python strings are modelled as lists of characters. -/
abbrev Str := List Char

/-- ASCII uppercase-to-lowercase table used by the Python str.lower calls
in the sources (all strings involved are ASCII). -/
def lowerTable : List (Char × Char) :=
  [('A', 'a'), ('B', 'b'), ('C', 'c'), ('D', 'd'), ('E', 'e'), ('F', 'f'),
   ('G', 'g'), ('H', 'h'), ('I', 'i'), ('J', 'j'), ('K', 'k'), ('L', 'l'),
   ('M', 'm'), ('N', 'n'), ('O', 'o'), ('P', 'p'), ('Q', 'q'), ('R', 'r'),
   ('S', 's'), ('T', 't'), ('U', 'u'), ('V', 'v'), ('W', 'w'), ('X', 'x'),
   ('Y', 'y'), ('Z', 'z')]

/-- Python chr.lower() for one ASCII character. -/
def pyLowerChar (c : Char) : Char :=
  match lowerTable.find? (fun p => p.1 = c) with
  | some p => p.2
  | none => c

/-- Python chr.upper() for one ASCII character. -/
def pyUpperChar (c : Char) : Char :=
  match lowerTable.find? (fun p => p.2 = c) with
  | some p => p.1
  | none => c

/-- Python str.lower(). -/
def pyLower (s : Str) : Str := s.map pyLowerChar

/-- Python str.upper(). -/
def pyUpper (s : Str) : Str := s.map pyUpperChar

/-- Python str.isalpha(): non-empty and every character alphabetic. -/
def pyIsAlpha (s : Str) : Bool := !s.isEmpty && s.all Char.isAlpha

theorem pyLowerChar_isAlpha {c : Char} (h : c.isAlpha = true) :
    (pyLowerChar c).isAlpha = true := by
  unfold pyLowerChar
  cases hf : lowerTable.find? (fun p => p.1 = c) with
  | none => exact h
  | some p =>
    have hmem : p ∈ lowerTable := List.mem_of_find?_eq_some hf
    have hall : lowerTable.all (fun p => p.2.isAlpha) = true := by decide
    exact (List.all_eq_true.mp hall) p hmem

theorem pyLower_length (s : Str) : (pyLower s).length = s.length := by
  simp [pyLower]

theorem pyLower_isAlpha {s : Str} (h : pyIsAlpha s = true) :
    pyIsAlpha (pyLower s) = true := by
  unfold pyIsAlpha at h ⊢
  simp only [Bool.and_eq_true, List.all_eq_true] at h ⊢
  obtain ⟨h1, h2⟩ := h
  refine ⟨?_, ?_⟩
  · cases s with
    | nil => simp [List.isEmpty] at h1
    | cons a l => simp [pyLower]
  · intro c hc
    obtain ⟨a, ha, rfl⟩ := List.mem_map.mp hc
    exact pyLowerChar_isAlpha (h2 a ha)

/-! ## Grid model

The grid is a list of rows of single characters; '.' is EMPTY. Cells are
addressed as (x, y) = (column, row) exactly as in the Python sources. -/

abbrev Grid := List (List Char)

/-- Read cell (x, y) of a grid, with '.' for out-of-range reads
(the sources only read in bounds). -/
def cellAt (g : Grid) (x y : Nat) : Char := (g.getD y []).getD x '.'

/-- Write cell (x, y) of a grid (no-op out of bounds, matching List.set). -/
def setCell (g : Grid) (x y : Nat) (c : Char) : Grid :=
  g.set y ((g.getD y []).set x c)

theorem length_setCell (g : Grid) (x y : Nat) (c : Char) :
    (setCell g x y c).length = g.length := by
  simp [setCell]

theorem getD_set_self {l : List Char} {n : Nat} (a d : Char) (h : n < l.length) :
    (l.set n a).getD n d = a := by
  simp [List.getD, List.getElem?_set, h]

theorem getD_set_ne {l : List Char} {n m : Nat} (a d : Char) (h : n ≠ m) :
    (l.set n a).getD m d = l.getD m d := by
  simp [List.getD, List.getElem?_set, h]

theorem rowsD_set_self {g : Grid} {y : Nat} (r : List Char) (h : y < g.length) :
    (g.set y r).getD y [] = r := by
  induction g generalizing y with
  | nil => simp at h
  | cons a l ih =>
    cases y with
    | zero => simp [List.getD]
    | succ m =>
      simp only [List.set, List.getD, List.getElem?_cons_succ]
      exact ih (by simpa using h)

theorem rowsD_set_ne {g : Grid} {y z : Nat} (r : List Char) (h : y ≠ z) :
    (g.set y r).getD z [] = g.getD z [] := by
  simp [List.getD, List.getElem?_set, h]

theorem cellAt_setCell_self {g : Grid} {x y : Nat} (c : Char)
    (hy : y < g.length) (hx : x < (g.getD y []).length) :
    cellAt (setCell g x y c) x y = c := by
  unfold cellAt setCell
  rw [rowsD_set_self _ hy]
  exact getD_set_self _ _ hx

theorem cellAt_setCell_ne {g : Grid} {x y a b : Nat} (c : Char)
    (h : (a, b) ≠ (x, y)) :
    cellAt (setCell g x y c) a b = cellAt g a b := by
  unfold cellAt setCell
  by_cases hyb : y = b
  · subst hyb
    have hxa : x ≠ a := by
      intro hxa
      exact h (by simp [hxa])
    by_cases hy : y < g.length
    · rw [rowsD_set_self _ hy]
      exact getD_set_ne _ _ hxa
    · rw [List.set_eq_of_length_le (by omega)]
  · rw [rowsD_set_ne _ hyb]

theorem list_set_getD_self {α : Type} :
    ∀ (l : List α) (n : Nat) (d : α), n < l.length → l.set n (l.getD n d) = l := by
  intro l
  induction l with
  | nil => intro n d h; simp at h
  | cons a t ih =>
    intro n d h
    cases n with
    | zero => simp [List.getD]
    | succ m =>
      have h2 : m < t.length := by simpa using h
      show a :: t.set m ((a :: t).getD (m + 1) d) = a :: t
      have e : (a :: t).getD (m + 1) d = t.getD m d := by simp [List.getD]
      rw [e, ih m d h2]

theorem setCell_cellAt_self {g : Grid} {x y : Nat}
    (hy : y < g.length) (hx : x < (g.getD y []).length) :
    setCell g x y (cellAt g x y) = g := by
  unfold setCell cellAt
  rw [list_set_getD_self _ _ _ hx, list_set_getD_self _ _ _ hy]

theorem setCell_comm {g : Grid} {x y a b : Nat} (c d : Char)
    (h : (a, b) ≠ (x, y)) :
    setCell (setCell g x y c) a b d = setCell (setCell g a b d) x y c := by
  unfold setCell
  by_cases hyb : y = b
  · subst hyb
    have hxa : x ≠ a := fun hxa => h (by simp [hxa])
    by_cases hy : y < g.length
    · rw [rowsD_set_self _ hy, rowsD_set_self _ hy, List.set_set,
        List.set_set, List.set_comm _ _ _ (Ne.symm hxa)]
    · have e1 : ∀ (r : List Char), g.set y r = g := fun r =>
        List.set_eq_of_length_le (by omega)
      simp only [e1]
  · rw [rowsD_set_ne _ hyb, rowsD_set_ne _ (Ne.symm hyb), List.set_comm _ _ _ hyb]

/-! ## A* solver: grid hashing (astar_solver.py, _hash_grid)

The Python code hashes a grid as the concatenation of all its rows
joined into one string. -/

/-- AStarSolver._hash_grid: concatenation of every row of the grid. -/
def hash_grid (g : Grid) : Str := g.flatten

/-! ## Dictionary helper: letter scores and word scoring
(dictionary_helper.py, LETTER_SCORES and _word_score) -/

/-- The LETTER_SCORES table of dictionary_helper.py (keys are uppercase). -/
def LETTER_SCORES (c : Char) : Nat :=
  if c = 'E' then 13 else if c = 'T' then 12 else if c = 'A' then 11
  else if c = 'O' then 10 else if c = 'I' then 9 else if c = 'N' then 8
  else if c = 'S' then 7 else if c = 'H' then 6 else if c = 'R' then 5
  else if c = 'D' then 4 else if c = 'L' then 3 else if c = 'C' then 2
  else if c = 'U' then 1 else if c = 'M' then 1 else if c = 'W' then 1
  else if c = 'F' then 1 else if c = 'G' then 1 else if c = 'Y' then 1
  else if c = 'P' then 1 else if c = 'B' then 1 else if c = 'V' then 1
  else if c = 'K' then 1 else if c = 'J' then 1 else if c = 'X' then 1
  else if c = 'Q' then 1 else if c = 'Z' then 1 else 0

/-- The obscure-letter set of _word_score. -/
def obscureLetters : List Char := ['q', 'z', 'x', 'j', 'k', 'v']

/-- DictionaryHelper._word_score: letter-value sum, minus the size of the
intersection of the word's (lowercased) letter set with the obscure set,
clamped to at least 1. -/
def word_score (w : Str) : Int :=
  let base : Int := (w.map (fun c => (LETTER_SCORES (pyUpperChar c) : Int))).sum
  let uniq : List Char := (pyLower w).dedup
  let pen : Int := (uniq.filter (fun c => c ∈ obscureLetters)).length
  max 1 (base - pen)

/-- Spec-side letter-value sum of a word. -/
def letterSum (w : Str) : Int := (w.map (fun c => (LETTER_SCORES (pyUpperChar c) : Int))).sum

/-- Spec side: the number of distinct obscure letters occurring in the
lowercased word. -/
def obscureCount (w : Str) : Nat :=
  (obscureLetters.filter (fun c => c ∈ pyLower w)).length

/-- The claim's placement-score formula, with the unspecified
first-letter-frequency bonus abstracted as a function b from the first
letter to the (integer) value of 10 − frequency × 0.5 rounded down; the
claim applies max(1, ·) to it. Interior vowels are the vowels at positions
1 .. L−2; the repeated-letter penalty fires when |unique letters| < L/2. -/
def interiorVowelCount (w : Str) : Nat :=
  (((w.drop 1).dropLast).filter
    (fun c => pyLowerChar c ∈ ['a', 'e', 'i', 'o', 'u'])).length

def uniqueLetterCount (w : Str) : Nat := (pyLower w).dedup.length

def word_score_claim (b : Char → Int) (w : Str) : Int :=
  max 1 (letterSum w + 2 * (interiorVowelCount w : Int)
    - (if 2 * uniqueLetterCount w < w.length then 3 else 0)
    + max 1 (b (w.headD 'a')))

/-- Claim C4 (counterexample): whatever value the first-letter-frequency
bonus takes, the claimed formula (letter sum, +2 per interior vowel, −3
repeated-letter penalty, + max(1, 10 − frequency × 0.5) rounded down,
clamped to ≥ 1) disagrees with the code's _word_score, already on the word
"aba": the code gives 23 while the claimed formula gives at least 24,
because the claimed first-letter bonus is always at least 1. -/
theorem word_score_claim_refuted :
    ¬ ∃ b : Char → Int, ∀ w : Str, word_score w = word_score_claim b w := by
  rintro ⟨b, hb⟩
  have h := hb ['a', 'b', 'a']
  have h1 : word_score ['a', 'b', 'a'] = 23 := by decide
  have e1 : letterSum ['a', 'b', 'a'] = 23 := by decide
  have e2 : interiorVowelCount ['a', 'b', 'a'] = 0 := by decide
  have e3 : uniqueLetterCount ['a', 'b', 'a'] = 2 := by decide
  unfold word_score_claim at h
  rw [e1, e2, e3] at h
  simp only [show ¬(2 * 2 < List.length ['a', 'b', 'a']) by decide, if_neg,
    not_false_eq_true] at h
  have ht : (1 : Int) ≤ max 1 (b (['a', 'b', 'a'].headD 'a')) := le_max_left _ _
  rw [h1, max_eq_right (by push_cast; omega)] at h
  push_cast at h
  omega

/-- Claim C4 (amended): the placement score returned by the dictionary
helper's _word_score equals the sum of per-letter values from the
LETTER_SCORES table minus the number of distinct obscure letters
(q, z, x, j, k, v) occurring in the word, clamped to be at least 1; there
is no interior-vowel bonus, no repeated-letter penalty and no first-letter
frequency bonus. -/
theorem word_score_eq_amended (w : Str) :
    word_score w = max 1 (letterSum w - (obscureCount w : Int)) := by
  unfold word_score obscureCount letterSum
  have hperm : List.Perm
      ((pyLower w).dedup.filter (fun c => decide (c ∈ obscureLetters)))
      (obscureLetters.filter (fun c => decide (c ∈ pyLower w))) := by
    rw [List.perm_ext_iff_of_nodup
      (List.Nodup.filter _ ((pyLower w).nodup_dedup))
      (List.Nodup.filter _ (by decide : obscureLetters.Nodup))]
    intro a
    simp only [List.mem_filter, List.mem_dedup, decide_eq_true_eq]
    tauto
  simp only [hperm.length_eq]

/-- Claim C4 (witness for the amended theorem): evaluated on the concrete
word "qza". -/
theorem word_score_eq_amended_witness :
    word_score ['q', 'z', 'a'] =
      max 1 (letterSum ['q', 'z', 'a'] - (obscureCount ['q', 'z', 'a'] : Int)) :=
  word_score_eq_amended ['q', 'z', 'a']

/-- Claim C10: _hash_grid is injective on grids of fixed dimensions: two
grids of equal height whose rows all have the same width w and whose
concatenation hashes agree are equal row for row; hence the A* closed-set
deduplication over grid hashes never identifies two distinct grids of the
same shape. -/
theorem hash_grid_injective :
    ∀ (g1 g2 : Grid) (w : Nat), g1.length = g2.length →
      (∀ r ∈ g1, r.length = w) → (∀ r ∈ g2, r.length = w) →
      hash_grid g1 = hash_grid g2 → g1 = g2 := by
  intro g1
  induction g1 with
  | nil =>
    intro g2 w hlen h1 h2 hh
    cases g2 with
    | nil => rfl
    | cons r t => simp at hlen
  | cons r1 t1 ih =>
    intro g2 w hlen h1 h2 hh
    cases g2 with
    | nil => simp at hlen
    | cons r2 t2 =>
      simp only [hash_grid, List.flatten_cons] at hh
      have hl : r1.length = r2.length := by
        rw [h1 r1 (by simp), h2 r2 (by simp)]
      obtain ⟨hr, ht⟩ := List.append_inj hh hl
      have htail := ih t2 w (by simpa using hlen)
        (fun r hmem => h1 r (by simp [hmem]))
        (fun r hmem => h2 r (by simp [hmem])) ht
      rw [hr, htail]

/-- Claim C10 (witness): the injectivity theorem applied to concrete 2×2
grids with equal hashes. -/
theorem hash_grid_injective_witness :
    ([['A', 'B'], ['C', 'D']] : Grid) = [['A', 'B'], ['C', 'D']] :=
  hash_grid_injective [['A', 'B'], ['C', 'D']] [['A', 'B'], ['C', 'D']] 2
    (by decide) (by decide) (by decide) (by decide)

/-! ## Dictionary helper: loading (dictionary_helper.py, load_dictionary)

The per-letter JSON files are modelled as association lists from headword
to entry; load_dictionary walks them in order and keeps an entry unless
the headword is at most two characters long, not purely alphabetic, or
(lowercased) in the blacklist. Stored keys are the lowercased headwords. -/

/-- One meaning of a dictionary entry (def / speech_part / example). -/
structure Meaning where
  defn : Str
  speechPart : Str
  usage : Str
deriving DecidableEq

/-- A dictionary entry: a list of meanings. -/
structure Entry where
  meanings : List Meaning
deriving DecidableEq

/-- The BLACKLIST_WORDS set of dictionary_helper.py. -/
def BLACKLIST_WORDS : List Str :=
  ["a", "i", "me", "my", "we", "us", "our", "you", "your", "he",
   "him", "his", "she", "her", "it", "its", "they", "them", "their",
   "this", "that", "these", "those", "am", "is", "are", "was", "were",
   "be", "being", "been", "have", "has", "had", "do", "does", "did",
   "will", "would", "shall", "should", "may", "might", "must", "can",
   "could", "and", "but", "or", "nor", "for", "so", "yet", "as", "at",
   "by", "in", "of", "on", "to", "with", "from", "into", "about", "over",
   "anal"].map String.toList

/-- The filter applied to one (headword, entry) item by load_dictionary. -/
def loadKeep (we : Str × Entry) : Option (Str × Entry) :=
  if we.1.length ≤ 2 then none
  else if !pyIsAlpha we.1 then none
  else if pyLower we.1 ∈ BLACKLIST_WORDS then none
  else some (pyLower we.1, we.2)

/-- DictionaryHelper.load_dictionary over the list of per-letter files. -/
def load_dictionary (files : List (List (Str × Entry))) : List (Str × Entry) :=
  files.flatMap (fun items => items.filterMap loadKeep)

/-- Claim C6 (counterexample): load_dictionary keeps an entry whose
headword is 16 characters long and whose meanings list is empty, so the
claimed upper length bound of 15 and the claimed non-empty-meanings
condition are not enforced by the code. -/
theorem load_dictionary_claim_refuted :
    ∃ ke ∈ load_dictionary [[("abcdefghijklmnop".toList, Entry.mk [])]],
      15 < ke.1.length ∧ ke.2.meanings = [] := by decide

/-- Claim C6 (amended): after load_dictionary completes, every stored
headword is purely alphabetic, has length at least 3, and is not in the
stopword blacklist, and every input entry satisfying those conditions is
kept; there is no upper length bound and entries with an empty meanings
list are kept. -/
theorem load_dictionary_invariant (files : List (List (Str × Entry))) :
    (∀ ke ∈ load_dictionary files,
      pyIsAlpha ke.1 = true ∧ 3 ≤ ke.1.length ∧ ke.1 ∉ BLACKLIST_WORDS) ∧
    (∀ items ∈ files, ∀ we ∈ items, 3 ≤ we.1.length → pyIsAlpha we.1 = true →
      pyLower we.1 ∉ BLACKLIST_WORDS →
      (pyLower we.1, we.2) ∈ load_dictionary files) := by
  constructor
  · intro ke hke
    simp only [load_dictionary, List.mem_flatMap, List.mem_filterMap] at hke
    obtain ⟨items, _, we, _, hkeep⟩ := hke
    unfold loadKeep at hkeep
    split_ifs at hkeep with h1 h2 h3
    injection hkeep with hkv
    subst hkv
    refine ⟨?_, ?_, h3⟩
    · exact pyLower_isAlpha (by simpa using h2)
    · rw [pyLower_length]; omega
  · intro items hitems we hwe hlen halpha hbl
    simp only [load_dictionary, List.mem_flatMap, List.mem_filterMap]
    refine ⟨items, hitems, we, hwe, ?_⟩
    unfold loadKeep
    rw [if_neg (by omega), if_neg (by simp [halpha]), if_neg hbl]

/-- Claim C6 (witness for the amended theorem): the invariant evaluated on
a concrete one-file load containing the word "cat". -/
theorem load_dictionary_invariant_witness :
    pyIsAlpha ("cat".toList) = true ∧ 3 ≤ ("cat".toList).length ∧
      ("cat".toList) ∉ BLACKLIST_WORDS :=
  (load_dictionary_invariant [[("cat".toList, Entry.mk [])]]).1
    ("cat".toList, Entry.mk []) (by decide)

/-! ## A* solver: slots, constraint degrees and the heuristic
(astar_solver.py, _precompute_slot_constraints and _calculate_heuristic) -/

/-- A word slot as used by the solvers (dictionary with number, direction,
origin, length, clue and optional answer). -/
structure Slot where
  number : Nat
  direction : String
  x : Nat
  y : Nat
  length : Nat
  clue : Str
  answer : Str
deriving DecidableEq

/-- The (number, direction) identity of a slot. -/
def slotKey (s : Slot) : Nat × String := (s.number, s.direction)

/-- The geometric crossing test of _precompute_slot_constraints. -/
def crossCond (s o : Slot) : Bool :=
  if s.direction = "across" then
    decide (o.y ≤ s.y ∧ s.y < o.y + o.length ∧ s.x ≤ o.x ∧ o.x < s.x + s.length)
  else
    decide (s.y ≤ o.y ∧ o.y < s.y + s.length ∧ o.x ≤ s.x ∧ s.x < o.x + s.length)

/-- AStarSolver._precompute_slot_constraints: the constraint degree of one
slot is the number of other slots of the other direction crossing it. -/
def precompute_slot_constraints (slots : List Slot) (s : Slot) : Nat :=
  (slots.filter (fun o =>
    !decide (s.number = o.number ∧ s.direction = o.direction) &&
    decide (s.direction ≠ o.direction) && crossCond s o)).length

/-- AStarSolver._calculate_heuristic: number of EMPTY cells plus half the
summed constraint degrees of the unfilled slots (integer division); constr
is the precomputed slot_constraints mapping (0 for unknown keys). -/
def calculate_heuristic (slots : List Slot) (constr : Nat × String → Nat)
    (g : Grid) (filled : List (Nat × String)) : Int :=
  (((g.map (fun row => row.countP (fun c => c = '.'))).sum : Nat) : Int) +
    ((slots.filter (fun s => slotKey s ∉ filled)).map
      (fun s => (constr (slotKey s) : Int))).sum / 2

/-- Spec side: the number of EMPTY cells remaining in the grid. -/
def emptyCellCount (g : Grid) : Nat := (g.flatten.filter (fun c => c = '.')).length

/-- Spec side: the summed constraint degree over unfilled slots. -/
def unfilledDegreeSum (slots : List Slot) (constr : Nat × String → Nat)
    (filled : List (Nat × String)) : Nat :=
  ((slots.filter (fun s => slotKey s ∉ filled)).map (fun s => constr (slotKey s))).sum

/-- The claimed heuristic: 10 per unfilled slot, 1 per EMPTY cell, plus
half the summed degrees of unfilled slots. -/
def heuristic_claim (slots : List Slot) (constr : Nat × String → Nat)
    (g : Grid) (filled : List (Nat × String)) : Int :=
  10 * ((slots.filter (fun s => slotKey s ∉ filled)).length : Int) +
    (emptyCellCount g : Int) + (unfilledDegreeSum slots constr filled : Int) / 2

theorem sum_map_intCast {α : Type} (f : α → Nat) (l : List α) :
    (l.map (fun a => (f a : Int))).sum = ((l.map f).sum : Int) := by
  induction l with
  | nil => simp
  | cons a t ih =>
    simp only [List.map_cons, List.sum_cons, ih]
    push_cast
    ring

/-- Claim C8 (counterexample): on a 1×1 all-EMPTY grid with a single
unfilled slot of degree 0, the code's heuristic is 1 while the claimed
formula (with the unfilled-slot term weighted 10) gives 11: the code has
no unfilled-slot term at all. -/
theorem calculate_heuristic_claim_refuted :
    calculate_heuristic [Slot.mk 1 "across" 0 0 2 [] []] (fun _ => 0)
        [['.']] [] = 1 ∧
      heuristic_claim [Slot.mk 1 "across" 0 0 2 [] []] (fun _ => 0)
        [['.']] [] = 11 := by
  constructor <;> decide

/-- Claim C8 (amended): the A* heuristic equals the number of EMPTY cells
remaining plus the summed constraint degrees of the unfilled slots divided
by 2 (integer division), with no per-unfilled-slot term, and it is always
non-negative. -/
theorem calculate_heuristic_amended (slots : List Slot)
    (constr : Nat × String → Nat) (g : Grid) (filled : List (Nat × String)) :
    calculate_heuristic slots constr g filled =
      (emptyCellCount g : Int) + (unfilledDegreeSum slots constr filled : Int) / 2 ∧
    0 ≤ calculate_heuristic slots constr g filled := by
  have hcount : (g.map (fun row => row.countP (fun c => c = '.'))).sum =
      emptyCellCount g := by
    unfold emptyCellCount
    induction g with
    | nil => simp
    | cons r t ih =>
      simp [List.flatten_cons, List.filter_append, ih,
        List.countP_eq_length_filter, Function.comp_def]
  have hsum : ((slots.filter (fun s => slotKey s ∉ filled)).map
      (fun s => (constr (slotKey s) : Int))).sum =
      (unfilledDegreeSum slots constr filled : Int) := by
    unfold unfilledDegreeSum
    rw [sum_map_intCast]
  have heq : calculate_heuristic slots constr g filled =
      (emptyCellCount g : Int) + (unfilledDegreeSum slots constr filled : Int) / 2 := by
    unfold calculate_heuristic
    rw [hcount, hsum]
  refine ⟨heq, ?_⟩
  rw [heq]
  have h1 : (0 : Int) ≤ (emptyCellCount g : Int) := Int.natCast_nonneg _
  have h2 : (0 : Int) ≤ (unfilledDegreeSum slots constr filled : Int) / 2 :=
    Int.ediv_nonneg (Int.natCast_nonneg _) (by norm_num)
  omega

/-! ## Generator: crossword numbering (crossword_generator.py, analyze_grid)

The first pass of analyze_grid scans the grid row-major, detects the
slot-start cells and numbers them consecutively from 1, with a single
number per cell (shared by an ACROSS and a DOWN slot starting there). -/

/-- The row-major scan order of analyze_grid: y outer, x inner. -/
def scanPositions (W H : Nat) : List (Nat × Nat) :=
  (List.range H).flatMap (fun y => (List.range W).map (fun x => (x, y)))

/-- Slot-start test of analyze_grid: a non-EMPTY cell that starts an
across run of length at least 2 or a down run of length at least 2. -/
def is_slot_start (g : Grid) (W H : Nat) (p : Nat × Nat) : Bool :=
  decide (cellAt g p.1 p.2 ≠ '.') &&
  (((decide (p.1 = 0) || decide (cellAt g (p.1 - 1) p.2 = '.')) &&
      (decide (p.1 + 1 < W) && decide (cellAt g (p.1 + 1) p.2 ≠ '.'))) ||
   ((decide (p.2 = 0) || decide (cellAt g p.1 (p.2 - 1) = '.')) &&
      (decide (p.2 + 1 < H) && decide (cellAt g p.1 (p.2 + 1) ≠ '.'))))

/-- The numbering loop of analyze_grid's first pass: walk the scan order,
and give each slot-start cell not yet numbered the next number. -/
def numberPass (g : Grid) (W H : Nat) :
    List (Nat × Nat) → List ((Nat × Nat) × Nat) → Nat → List ((Nat × Nat) × Nat)
  | [], acc, _ => acc
  | p :: ps, acc, n =>
    if is_slot_start g W H p && acc.all (fun q => q.1 ≠ p) then
      numberPass g W H ps (acc ++ [(p, n)]) (n + 1)
    else numberPass g W H ps acc n

/-- The numbered_cells mapping produced by analyze_grid's first pass. -/
def analyze_grid_numbering (g : Grid) (W H : Nat) : List ((Nat × Nat) × Nat) :=
  numberPass g W H (scanPositions W H) [] 1

/-- Spec side: pair a list of cells with consecutive numbers from n. -/
def numberedFrom : List (Nat × Nat) → Nat → List ((Nat × Nat) × Nat)
  | [], _ => []
  | p :: ps, n => (p, n) :: numberedFrom ps (n + 1)

/-- Spec side: the slot-start cells in row-major order. -/
def slotStartCells (g : Grid) (W H : Nat) : List (Nat × Nat) :=
  (scanPositions W H).filter (is_slot_start g W H)

theorem scanPositions_nodup (W H : Nat) : (scanPositions W H).Nodup := by
  unfold scanPositions
  rw [List.nodup_flatMap]
  refine ⟨fun y _ => ?_, ?_⟩
  · exact (List.nodup_range W).map (fun a b h => by simpa using h)
  · refine List.Pairwise.imp ?_ (List.nodup_range H)
    intro a b hab p hpa hpb
    obtain ⟨xa, _, rfl⟩ := List.mem_map.mp hpa
    obtain ⟨xb, _, hEq⟩ := List.mem_map.mp hpb
    exact hab (((Prod.mk.injEq _ _ _ _).mp hEq).2.symm)

theorem mem_numberedFrom_fst {ps : List (Nat × Nat)} {p : Nat × Nat} {m n : Nat}
    (h : (p, m) ∈ numberedFrom ps n) : p ∈ ps := by
  induction ps generalizing n with
  | nil => simp [numberedFrom] at h
  | cons q t ih =>
    simp only [numberedFrom, List.mem_cons] at h ⊢
    rcases h with h | h
    · exact Or.inl (congrArg Prod.fst h)
    · exact Or.inr (ih h)

theorem numberedFrom_unique {ps : List (Nat × Nat)} (hps : ps.Nodup)
    {p : Nat × Nat} {n n₁ n₂ : Nat}
    (h1 : (p, n₁) ∈ numberedFrom ps n) (h2 : (p, n₂) ∈ numberedFrom ps n) :
    n₁ = n₂ := by
  induction ps generalizing n with
  | nil => simp [numberedFrom] at h1
  | cons q t ih =>
    simp only [numberedFrom, List.mem_cons] at h1 h2
    rcases h1 with h1 | h1 <;> rcases h2 with h2 | h2
    · rw [(Prod.mk.injEq _ _ _ _).mp h1 |>.2, (Prod.mk.injEq _ _ _ _).mp h2 |>.2]
    · obtain ⟨hq, rfl⟩ := (Prod.mk.injEq _ _ _ _).mp h1
      exact absurd (mem_numberedFrom_fst h2) (hq ▸ (List.nodup_cons.mp hps).1)
    · obtain ⟨hq, rfl⟩ := (Prod.mk.injEq _ _ _ _).mp h2
      exact absurd (mem_numberedFrom_fst h1) (hq ▸ (List.nodup_cons.mp hps).1)
    · exact ih (List.nodup_cons.mp hps).2 h1 h2

theorem numberPass_eq (g : Grid) (W H : Nat) :
    ∀ (ps : List (Nat × Nat)) (acc : List ((Nat × Nat) × Nat)) (n : Nat),
      ps.Nodup → (∀ p ∈ ps, ∀ q ∈ acc, q.1 ≠ p) →
      numberPass g W H ps acc n =
        acc ++ numberedFrom (ps.filter (is_slot_start g W H)) n := by
  intro ps
  induction ps with
  | nil => intro acc n _ _; simp [numberPass, numberedFrom]
  | cons p t ih =>
    intro acc n hnd hacc
    obtain ⟨hp, ht⟩ := List.nodup_cons.mp hnd
    by_cases hs : is_slot_start g W H p = true
    · have hall : acc.all (fun q => q.1 ≠ p) = true := by
        rw [List.all_eq_true]
        intro q hq
        exact decide_eq_true (hacc p (by simp) q hq)
      rw [numberPass, if_pos (by rw [hs, hall]; rfl)]
      rw [ih (acc ++ [(p, n)]) (n + 1) ht ?_]
      · rw [List.filter_cons_of_pos hs]
        simp [numberedFrom]
      · intro p' hp' q hq
        rcases List.mem_append.mp hq with hq | hq
        · exact hacc p' (by simp [hp']) q hq
        · simp only [List.mem_singleton] at hq
          subst hq
          intro hEq
          exact hp (by rw [show p = p' from hEq]; exact hp')
    · rw [numberPass, if_neg (by simp [hs])]
      rw [ih acc n ht (fun p' hp' q hq => hacc p' (by simp [hp']) q hq)]
      rw [List.filter_cons_of_neg (by simp [hs])]

/-- Claim C7: analyze_grid scans cells row-major (left-to-right,
top-to-bottom) and assigns crossword numbers 1..N consecutively in
first-seen order to the slot-start cells (cells starting an across or a
down run of length at least 2); each start cell receives exactly one
number, so an ACROSS and a DOWN slot starting at the same cell share it. -/
theorem analyze_grid_numbering_spec (g : Grid) (W H : Nat) :
    analyze_grid_numbering g W H = numberedFrom (slotStartCells g W H) 1 ∧
    (∀ (p : Nat × Nat) (n₁ n₂ : Nat), (p, n₁) ∈ analyze_grid_numbering g W H →
      (p, n₂) ∈ analyze_grid_numbering g W H → n₁ = n₂) := by
  have heq : analyze_grid_numbering g W H = numberedFrom (slotStartCells g W H) 1 := by
    unfold analyze_grid_numbering slotStartCells
    rw [numberPass_eq g W H _ [] 1 (scanPositions_nodup W H) (by simp)]
    simp
  refine ⟨heq, fun p n₁ n₂ h1 h2 => ?_⟩
  rw [heq] at h1 h2
  exact numberedFrom_unique ((scanPositions_nodup W H).filter _) h1 h2

/-! ## DFS solver: placing and removing words
(dfs_solver.py, _place_word and _remove_word) -/

/-- x coordinate of the i-th cell of a slot. -/
def slotCellX (s : Slot) (i : Nat) : Nat :=
  if s.direction = "across" then s.x + i else s.x

/-- y coordinate of the i-th cell of a slot. -/
def slotCellY (s : Slot) (i : Nat) : Nat :=
  if s.direction = "across" then s.y else s.y + i

/-- The i-th cell of a slot. -/
def slotCell (s : Slot) (i : Nat) : Nat × Nat := (slotCellX s i, slotCellY s i)

/-- The loop of DFSSolver._place_word from character index i on: write each
character whose cell is EMPTY and record the newly written positions. -/
def place_from (s : Slot) : Grid → List Char → Nat → Grid × List (Nat × Nat)
  | g, [], _ => (g, [])
  | g, c :: cs, i =>
    if cellAt g (slotCellX s i) (slotCellY s i) = '.' then
      let pr := place_from s (setCell g (slotCellX s i) (slotCellY s i) c) cs (i + 1)
      (pr.1, (slotCellX s i, slotCellY s i) :: pr.2)
    else place_from s g cs (i + 1)

/-- DFSSolver._place_word. -/
def place_word (g : Grid) (s : Slot) (w : Str) : Grid × List (Nat × Nat) :=
  place_from s g w 0

/-- DFSSolver._remove_word: reset every recorded position to EMPTY. -/
def remove_word (g : Grid) (ps : List (Nat × Nat)) : Grid :=
  ps.foldl (fun h p => setCell h p.1 p.2 '.') g

/-- The whole span of the word lies inside the grid (the caller checks
this through _word_fits before placing). -/
def spanInBounds (g : Grid) (s : Slot) (n : Nat) : Bool :=
  (List.range n).all (fun i => decide (slotCellY s i < g.length) &&
    decide (slotCellX s i < (g.getD (slotCellY s i) []).length))

theorem slotCell_inj (s : Slot) {i j : Nat} (h : i ≠ j) :
    slotCell s i ≠ slotCell s j := by
  unfold slotCell slotCellX slotCellY
  split_ifs <;> simp [Prod.ext_iff] <;> omega

theorem remove_word_cons (h : Grid) (p : Nat × Nat) (t : List (Nat × Nat)) :
    remove_word h (p :: t) = remove_word (setCell h p.1 p.2 '.') t := rfl

theorem remove_word_setCell_swap {t : List (Nat × Nat)} {x y : Nat} (h : Grid)
    (v : Char) (hx : ∀ q ∈ t, q ≠ (x, y)) :
    remove_word (setCell h x y v) t = setCell (remove_word h t) x y v := by
  induction t generalizing h with
  | nil => rfl
  | cons p t ih =>
    rw [remove_word_cons, remove_word_cons,
      setCell_comm _ _ (hx p (by simp)),
      ih _ (fun q hq => hx q (by simp [hq]))]

theorem setCell_setCell_same (g : Grid) (x y : Nat) (c d : Char) :
    setCell (setCell g x y c) x y d = setCell g x y d := by
  unfold setCell
  by_cases hy : y < g.length
  · rw [rowsD_set_self _ hy, List.set_set, List.set_set]
  · have e1 : ∀ (r : List Char), g.set y r = g := fun r =>
      List.set_eq_of_length_le (by omega)
    simp only [e1]

theorem setCell_empty_of_cellAt {g : Grid} {x y : Nat}
    (h : cellAt g x y = '.') : setCell g x y '.' = g := by
  unfold setCell
  by_cases hy : y < g.length
  · by_cases hx : x < (g.getD y []).length
    · unfold cellAt at h
      rw [← h, list_set_getD_self _ _ _ hx, list_set_getD_self _ _ _ hy]
    · rw [List.set_eq_of_length_le (l := g.getD y []) (by omega)]
      exact list_set_getD_self g y [] hy
  · exact List.set_eq_of_length_le (by omega)

theorem place_from_spec (s : Slot) :
    ∀ (w : Str) (g : Grid) (i : Nat),
      (place_from s g w i).2 = ((List.range' i w.length).filter
          (fun j => cellAt g (slotCellX s j) (slotCellY s j) = '.')).map
          (fun j => slotCell s j) ∧
      remove_word (place_from s g w i).1 (place_from s g w i).2 = g ∧
      (∀ a b, (a, b) ∉ (place_from s g w i).2 →
        cellAt (place_from s g w i).1 a b = cellAt g a b) := by
  intro w
  induction w with
  | nil =>
    intro g i
    refine ⟨by simp [place_from, List.range'], rfl, fun a b _ => rfl⟩
  | cons c cs ih =>
    intro g i
    by_cases h : cellAt g (slotCellX s i) (slotCellY s i) = '.'
    · have hunf : place_from s g (c :: cs) i =
          ((place_from s (setCell g (slotCellX s i) (slotCellY s i) c) cs (i + 1)).1,
           (slotCellX s i, slotCellY s i) ::
             (place_from s (setCell g (slotCellX s i) (slotCellY s i) c) cs (i + 1)).2) := by
        rw [place_from, if_pos h]
      obtain ⟨e2, r2, u2⟩ := ih (setCell g (slotCellX s i) (slotCellY s i) c) (i + 1)
      have hfilter : ((List.range' (i + 1) cs.length).filter
          (fun j => cellAt (setCell g (slotCellX s i) (slotCellY s i) c)
            (slotCellX s j) (slotCellY s j) = '.')) =
          ((List.range' (i + 1) cs.length).filter
          (fun j => cellAt g (slotCellX s j) (slotCellY s j) = '.')) := by
        apply List.filter_congr
        intro j hj
        have hji : j ≠ i := by
          have := List.mem_range'.mp hj
          omega
        have hne : (slotCellX s j, slotCellY s j) ≠
            (slotCellX s i, slotCellY s i) := slotCell_inj s hji
        rw [cellAt_setCell_ne _ hne]
      have hmem : (slotCellX s i, slotCellY s i) ∉
          (place_from s (setCell g (slotCellX s i) (slotCellY s i) c) cs (i + 1)).2 := by
        rw [e2]
        intro hc
        obtain ⟨j, hj, hcell⟩ := List.mem_map.mp hc
        have hji : j ≠ i := by
          have := List.mem_range'.mp (List.mem_of_mem_filter hj)
          omega
        exact slotCell_inj s hji hcell
      refine ⟨?_, ?_, ?_⟩
      · rw [hunf, show (c :: cs).length = cs.length + 1 from rfl, List.range'_succ,
          List.filter_cons_of_pos (by simpa using h),
          List.map_cons, e2, hfilter]
        rfl
      · rw [hunf]
        simp only
        rw [remove_word_cons]
        simp only
        rw [remove_word_setCell_swap _ _ (fun q hq => by
            intro hEq; exact hmem (hEq ▸ hq)), r2,
          setCell_setCell_same, setCell_empty_of_cellAt h]
      · intro a b hab
        rw [hunf] at hab ⊢
        simp only [List.mem_cons, not_or] at hab
        obtain ⟨hab1, hab2⟩ := hab
        simp only
        rw [u2 a b hab2, cellAt_setCell_ne _ hab1]
    · have hunf : place_from s g (c :: cs) i = place_from s g cs (i + 1) := by
        rw [place_from, if_neg h]
      obtain ⟨e2, r2, u2⟩ := ih g (i + 1)
      refine ⟨?_, ?_, ?_⟩
      · rw [hunf, show (c :: cs).length = cs.length + 1 from rfl, List.range'_succ,
          List.filter_cons_of_neg (by simpa using h), e2]
      · rw [hunf]; exact r2
      · intro a b hab
        rw [hunf] at hab ⊢
        exact u2 a b hab

/-- Claim C1: _place_word writes only into cells of the slot's span that
were EMPTY before the call and returns exactly the list of those newly
written positions (in span order); every position outside the returned
list — in particular every pre-existing letter — is untouched; and
_remove_word on the returned list restores the grid to structural
equality with the grid before the pair. The hypothesis records that the
span is in bounds, which _word_fits guarantees before any placement. -/
theorem place_remove_spec (g : Grid) (s : Slot) (w : Str)
    (_hb : spanInBounds g s w.length = true) :
    (place_word g s w).2 = ((List.range w.length).filter
        (fun j => cellAt g (slotCellX s j) (slotCellY s j) = '.')).map
        (fun j => slotCell s j) ∧
    (∀ i < w.length, cellAt g (slotCellX s i) (slotCellY s i) ≠ '.' →
      cellAt (place_word g s w).1 (slotCellX s i) (slotCellY s i) =
        cellAt g (slotCellX s i) (slotCellY s i)) ∧
    (∀ a b, (a, b) ∉ (place_word g s w).2 →
      cellAt (place_word g s w).1 a b = cellAt g a b) ∧
    remove_word (place_word g s w).1 (place_word g s w).2 = g := by
  obtain ⟨e2, r2, u2⟩ := place_from_spec s w g 0
  have epos : (place_from s g w 0).2 = ((List.range w.length).filter
      (fun j => cellAt g (slotCellX s j) (slotCellY s j) = '.')).map
      (fun j => slotCell s j) := by
    rw [e2, List.range_eq_range']
  refine ⟨epos, ?_, u2, r2⟩
  intro i hi hne
  apply u2
  show slotCell s i ∉ (place_from s g w 0).2
  rw [epos]
  intro hc
  obtain ⟨j, hj, hcell⟩ := List.mem_map.mp hc
  by_cases hji : j = i
  · subst hji
    exact hne (by simpa using List.of_mem_filter hj)
  · exact slotCell_inj s hji hcell

/-- Claim C1 (witness): the place/remove pair evaluated on a concrete 2×2
grid with a pre-filled letter. -/
theorem place_remove_spec_witness :
    spanInBounds [['.', 'A'], ['.', '.']] (Slot.mk 1 "across" 0 0 2 [] []) 2 = true ∧
    remove_word
      (place_word [['.', 'A'], ['.', '.']] (Slot.mk 1 "across" 0 0 2 [] [])
        ['C', 'A']).1
      (place_word [['.', 'A'], ['.', '.']] (Slot.mk 1 "across" 0 0 2 [] [])
        ['C', 'A']).2 = [['.', 'A'], ['.', '.']] :=
  ⟨by decide,
   (place_remove_spec [['.', 'A'], ['.', '.']] (Slot.mk 1 "across" 0 0 2 [] [])
     ['C', 'A'] (by decide)).2.2.2⟩

/-! ## Generator: the fit test (crossword_generator.py, _fits)

The generator probes candidate origins that may be negative, so fit-test
coordinates are integers; the loop checks bounds before any grid access. -/

/-- Read a cell at signed coordinates (reads are guarded in the source,
so the default is never observed through _fits). -/
def cellI (g : Grid) (x y : Int) : Char :=
  if 0 ≤ x ∧ 0 ≤ y then cellAt g x.toNat y.toNat else '.'

/-- x coordinate of position i of the probed word. -/
def fitsPosX (vertical : Bool) (x : Int) (i : Nat) : Int :=
  if vertical then x else x + i

/-- y coordinate of position i of the probed word. -/
def fitsPosY (vertical : Bool) (y : Int) (i : Nat) : Int :=
  if vertical then y + i else y

/-- The cell content at position i of the probed word. -/
def cellAtPos (g : Grid) (vertical : Bool) (x y : Int) (i : Nat) : Char :=
  cellI g (fitsPosX vertical x i) (fitsPosY vertical y i)

/-- The perpendicular-adjacency test of _fits at a fresh cell: some
in-bounds neighbour perpendicular to the direction is non-EMPTY. -/
def perpBlocked (g : Grid) (W H : Nat) (vertical : Bool) (lx ly : Int) : Bool :=
  if vertical then
    decide (0 < lx ∧ cellI g (lx - 1) ly ≠ '.') ||
      decide (lx < (W : Int) - 1 ∧ cellI g (lx + 1) ly ≠ '.')
  else
    decide (0 < ly ∧ cellI g lx (ly - 1) ≠ '.') ||
      decide (ly < (H : Int) - 1 ∧ cellI g lx (ly + 1) ≠ '.')

/-- The end-spacing test of _fits: the cell one step before the origin or
one step past the end, when in bounds, is non-EMPTY. -/
def endsBlocked (g : Grid) (W H : Nat) (vertical : Bool) (x y : Int) (L : Nat) : Bool :=
  if vertical then
    decide (0 < y ∧ cellI g x (y - 1) ≠ '.') ||
      decide (y + L < (H : Int) ∧ cellI g x (y + L) ≠ '.')
  else
    decide (0 < x ∧ cellI g (x - 1) y ≠ '.') ||
      decide (x + L < (W : Int) ∧ cellI g (x + L) y ≠ '.')

/-- The per-cell loop of _fits, carrying the connect flag; after the loop
the word must connect and the end-spacing test must pass. -/
def fitsGo (g : Grid) (W H : Nat) (vertical : Bool) (x y : Int) (L : Nat) :
    List Char → Nat → Bool → Bool
  | [], _, connect => connect && !endsBlocked g W H vertical x y L
  | ch :: rest, i, connect =>
    if fitsPosX vertical x i < 0 ∨ (W : Int) ≤ fitsPosX vertical x i ∨
        fitsPosY vertical y i < 0 ∨ (H : Int) ≤ fitsPosY vertical y i then false
    else if cellAtPos g vertical x y i ≠ '.' then
      if cellAtPos g vertical x y i = ch then
        fitsGo g W H vertical x y L rest (i + 1) true
      else false
    else if perpBlocked g W H vertical (fitsPosX vertical x i) (fitsPosY vertical y i) then
      false
    else fitsGo g W H vertical x y L rest (i + 1) connect

/-- CrosswordGenerator._fits. -/
def fits (g : Grid) (W H : Nat) (word : Str) (vertical : Bool) (x y : Int) : Bool :=
  if ' ' ∈ word then false
  else fitsGo g W H vertical x y word.length word 0 false

/-- Spec side: position i lies inside the W×H grid. -/
def inBoundsAtP (W H : Nat) (vertical : Bool) (x y : Int) (i : Nat) : Prop :=
  0 ≤ fitsPosX vertical x i ∧ fitsPosX vertical x i < (W : Int) ∧
  0 ≤ fitsPosY vertical y i ∧ fitsPosY vertical y i < (H : Int)

/-- Spec side: the cells perpendicular to the direction at (lx, ly), when
they exist, are EMPTY. -/
def perpFreeP (g : Grid) (W H : Nat) (vertical : Bool) (lx ly : Int) : Prop :=
  (vertical = true →
    (0 < lx → cellI g (lx - 1) ly = '.') ∧
    (lx < (W : Int) - 1 → cellI g (lx + 1) ly = '.')) ∧
  (vertical = false →
    (0 < ly → cellI g lx (ly - 1) = '.') ∧
    (ly < (H : Int) - 1 → cellI g lx (ly + 1) = '.'))

/-- Spec side: the cell one step before the origin and the cell one step
after the word's end along the direction, when in bounds, are EMPTY. -/
def endsFreeP (g : Grid) (W H : Nat) (vertical : Bool) (x y : Int) (L : Nat) : Prop :=
  (vertical = true →
    (0 < y → cellI g x (y - 1) = '.') ∧
    (y + L < (H : Int) → cellI g x (y + L) = '.')) ∧
  (vertical = false →
    (0 < x → cellI g (x - 1) y = '.') ∧
    (x + L < (W : Int) → cellI g (x + L) y = '.'))

theorem perpBlocked_eq_false_iff (g : Grid) (W H : Nat) (vertical : Bool)
    (lx ly : Int) :
    perpBlocked g W H vertical lx ly = false ↔ perpFreeP g W H vertical lx ly := by
  unfold perpBlocked perpFreeP
  cases vertical <;> simp

theorem endsBlocked_eq_false_iff (g : Grid) (W H : Nat) (vertical : Bool)
    (x y : Int) (L : Nat) :
    endsBlocked g W H vertical x y L = false ↔ endsFreeP g W H vertical x y L := by
  unfold endsBlocked endsFreeP
  cases vertical <;> simp

/-- The amended claim's fit condition: no space in the word; every cell in
bounds; every cell EMPTY or equal to the word's letter; every fresh cell
perpendicular-free; ends free; and at least one cell intersects an
existing non-EMPTY cell (always — the generator's very first word is
placed by _place_initial_word without consulting _fits). -/
def fitsSpecAmended (g : Grid) (W H : Nat) (word : Str) (vertical : Bool)
    (x y : Int) : Prop :=
  (' ' ∉ word) ∧
  (∀ i < word.length, inBoundsAtP W H vertical x y i) ∧
  (∀ i < word.length, cellAtPos g vertical x y i = '.' ∨
    cellAtPos g vertical x y i = word.getD i ' ') ∧
  (∀ i < word.length, cellAtPos g vertical x y i = '.' →
    perpFreeP g W H vertical (fitsPosX vertical x i) (fitsPosY vertical y i)) ∧
  endsFreeP g W H vertical x y word.length ∧
  (∃ i < word.length, cellAtPos g vertical x y i ≠ '.')

/-- The grid contains no letter yet (the claim's very-first-word case). -/
def gridAllEmpty (g : Grid) : Bool := g.all (fun row => row.all (fun c => c = '.'))

/-- The claim's fit condition as stated: like the amended condition, but
without the no-space requirement and with the connectivity requirement
waived for the very first word (no letter on the grid yet). -/
def fitsClaim (g : Grid) (W H : Nat) (word : Str) (vertical : Bool)
    (x y : Int) : Prop :=
  (∀ i < word.length, inBoundsAtP W H vertical x y i) ∧
  (∀ i < word.length, cellAtPos g vertical x y i = '.' ∨
    cellAtPos g vertical x y i = word.getD i ' ') ∧
  (∀ i < word.length, cellAtPos g vertical x y i = '.' →
    perpFreeP g W H vertical (fitsPosX vertical x i) (fitsPosY vertical y i)) ∧
  endsFreeP g W H vertical x y word.length ∧
  ((∃ i < word.length, cellAtPos g vertical x y i ≠ '.') ∨ gridAllEmpty g = true)

instance inBoundsAtPDecidable (W H : Nat) (vertical : Bool) (x y : Int) (i : Nat) :
    Decidable (inBoundsAtP W H vertical x y i) := by
  unfold inBoundsAtP; exact inferInstance

instance perpFreePDecidable (g : Grid) (W H : Nat) (vertical : Bool) (lx ly : Int) :
    Decidable (perpFreeP g W H vertical lx ly) := by
  unfold perpFreeP; exact inferInstance

instance endsFreePDecidable (g : Grid) (W H : Nat) (vertical : Bool) (x y : Int)
    (L : Nat) : Decidable (endsFreeP g W H vertical x y L) := by
  unfold endsFreeP; exact inferInstance

instance fitsClaimDecidable (g : Grid) (W H : Nat) (word : Str) (vertical : Bool)
    (x y : Int) : Decidable (fitsClaim g W H word vertical x y) := by
  unfold fitsClaim
  exact inferInstance

/-- Claim C2 (counterexample): first, on an all-EMPTY 2×2 grid the word
"AB" placed across at (0, 0) satisfies every condition of the claim (the
connectivity exception applies: it is the very first word), yet _fits
returns False — the code requires an intersection unconditionally; second,
on a 3×3 grid holding only 'A' at (0, 0), the word "A B" (with a space)
satisfies every condition the claim lists, yet _fits returns False
because of its unstated space check. -/
theorem fits_claim_refuted :
    (fits [['.', '.'], ['.', '.']] 2 2 ['A', 'B'] false 0 0 = false ∧
      fitsClaim [['.', '.'], ['.', '.']] 2 2 ['A', 'B'] false 0 0) ∧
    (fits [['A', '.', '.'], ['.', '.', '.'], ['.', '.', '.']] 3 3
        ['A', ' ', 'B'] false 0 0 = false ∧
      fitsClaim [['A', '.', '.'], ['.', '.', '.'], ['.', '.', '.']] 3 3
        ['A', ' ', 'B'] false 0 0) := by
  exact ⟨⟨by decide, by decide⟩, ⟨by decide, by decide⟩⟩

theorem forall_lt_succ_shift {n : Nat} {P : Nat → Prop} :
    (∀ j < n + 1, P j) ↔ P 0 ∧ ∀ j < n, P (j + 1) := by
  constructor
  · intro h
    exact ⟨h 0 (by omega), fun j hj => h (j + 1) (by omega)⟩
  · rintro ⟨h0, h⟩ j hj
    cases j with
    | zero => exact h0
    | succ m => exact h m (by omega)

theorem exists_lt_succ_shift {n : Nat} {P : Nat → Prop} :
    (∃ j, j < n + 1 ∧ P j) ↔ P 0 ∨ ∃ j, j < n ∧ P (j + 1) := by
  constructor
  · rintro ⟨j, hj, hp⟩
    cases j with
    | zero => exact Or.inl hp
    | succ m => exact Or.inr ⟨m, by omega, hp⟩
  · rintro (h0 | ⟨j, hj, hp⟩)
    · exact ⟨0, by omega, h0⟩
    · exact ⟨j + 1, by omega, hp⟩

theorem forall_lt_succ_shift2 {n i : Nat} {Q : Nat → Nat → Prop} :
    (∀ j < n + 1, Q (i + j) j) ↔ Q i 0 ∧ ∀ j < n, Q (i + 1 + j) (j + 1) := by
  rw [forall_lt_succ_shift (P := fun j => Q (i + j) j)]
  constructor
  · rintro ⟨h0, h⟩
    refine ⟨by simpa using h0, fun j hj => ?_⟩
    have := h j hj
    rwa [show i + (j + 1) = i + 1 + j by omega] at this
  · rintro ⟨h0, h⟩
    refine ⟨by simpa using h0, fun j hj => ?_⟩
    have := h j hj
    rwa [show i + 1 + j = i + (j + 1) by omega] at this

theorem exists_lt_succ_shift2 {n i : Nat} {Q : Nat → Nat → Prop} :
    (∃ j < n + 1, Q (i + j) j) ↔ Q i 0 ∨ ∃ j < n, Q (i + 1 + j) (j + 1) := by
  rw [exists_lt_succ_shift (P := fun j => Q (i + j) j)]
  constructor
  · rintro (h0 | ⟨j, hj, hp⟩)
    · exact Or.inl (by simpa using h0)
    · refine Or.inr ⟨j, hj, ?_⟩
      rwa [show i + (j + 1) = i + 1 + j by omega] at hp
  · rintro (h0 | ⟨j, hj, hp⟩)
    · exact Or.inl (by simpa using h0)
    · refine Or.inr ⟨j, hj, ?_⟩
      rwa [show i + 1 + j = i + (j + 1) by omega] at hp

theorem fitsGo_iff (g : Grid) (W H : Nat) (vertical : Bool) (x y : Int) (L : Nat) :
    ∀ (ws : List Char) (i : Nat) (connect : Bool),
      fitsGo g W H vertical x y L ws i connect = true ↔
      ((∀ j < ws.length, inBoundsAtP W H vertical x y (i + j)) ∧
       (∀ j < ws.length, cellAtPos g vertical x y (i + j) = '.' ∨
         cellAtPos g vertical x y (i + j) = ws.getD j ' ') ∧
       (∀ j < ws.length, cellAtPos g vertical x y (i + j) = '.' →
         perpFreeP g W H vertical (fitsPosX vertical x (i + j)) (fitsPosY vertical y (i + j))) ∧
       (connect = true ∨ ∃ j < ws.length, cellAtPos g vertical x y (i + j) ≠ '.') ∧
       endsFreeP g W H vertical x y L) := by
  intro ws
  induction ws with
  | nil =>
    intro i connect
    simp only [fitsGo, List.length_nil, Bool.and_eq_true, Bool.not_eq_true']
    rw [endsBlocked_eq_false_iff]
    constructor
    · rintro ⟨hc, he⟩
      exact ⟨fun j hj => absurd hj (by omega), fun j hj => absurd hj (by omega),
        fun j hj => absurd hj (by omega), Or.inl hc, he⟩
    · rintro ⟨_, _, _, hc, he⟩
      rcases hc with hc | ⟨j, hj, _⟩
      · exact ⟨hc, he⟩
      · omega
  | cons ch rest ih =>
    intro i connect
    rw [show (ch :: rest).length = rest.length + 1 from rfl,
      forall_lt_succ_shift2 (Q := fun k _ => inBoundsAtP W H vertical x y k),
      forall_lt_succ_shift2 (Q := fun k j => cellAtPos g vertical x y k = '.' ∨
        cellAtPos g vertical x y k = (ch :: rest).getD j ' '),
      forall_lt_succ_shift2 (Q := fun k _ => cellAtPos g vertical x y k = '.' →
        perpFreeP g W H vertical (fitsPosX vertical x k) (fitsPosY vertical y k)),
      exists_lt_succ_shift2 (Q := fun k _ => cellAtPos g vertical x y k ≠ '.')]
    simp only [List.getD_cons_zero, List.getD_cons_succ]
    by_cases hb : inBoundsAtP W H vertical x y i
    · have hbneg : ¬(fitsPosX vertical x i < 0 ∨ (W : Int) ≤ fitsPosX vertical x i ∨
          fitsPosY vertical y i < 0 ∨ (H : Int) ≤ fitsPosY vertical y i) := by
        unfold inBoundsAtP at hb
        omega
      by_cases he : cellAtPos g vertical x y i = '.'
      · by_cases hp : perpBlocked g W H vertical (fitsPosX vertical x i)
            (fitsPosY vertical y i) = true
        · have hLHS : fitsGo g W H vertical x y L (ch :: rest) i connect = false := by
            simp only [fitsGo, if_neg hbneg]
            rw [if_neg (by simp [he]), if_pos hp]
          rw [hLHS]
          simp only [Bool.false_eq_true, false_iff]
          rintro ⟨_, _, ⟨hperp0, _⟩, _, _⟩
          have := (perpBlocked_eq_false_iff g W H vertical _ _).mpr (hperp0 he)
          rw [this] at hp
          exact Bool.false_ne_true hp
        · have hLHS : fitsGo g W H vertical x y L (ch :: rest) i connect =
              fitsGo g W H vertical x y L rest (i + 1) connect := by
            simp only [fitsGo, if_neg hbneg]
            rw [if_neg (by simp [he]), if_neg hp]
          rw [hLHS, ih (i + 1) connect]
          have hperp0 : cellAtPos g vertical x y i = '.' →
              perpFreeP g W H vertical (fitsPosX vertical x i) (fitsPosY vertical y i) :=
            fun _ => (perpBlocked_eq_false_iff g W H vertical _ _).mp
              (Bool.not_eq_true _ ▸ hp)
          constructor
          · rintro ⟨h1, h2, h3, h4, h5⟩
            refine ⟨⟨hb, h1⟩, ⟨Or.inl he, h2⟩, ⟨hperp0, h3⟩, ?_, h5⟩
            rcases h4 with h4 | h4
            · exact Or.inl h4
            · exact Or.inr (Or.inr h4)
          · rintro ⟨⟨_, h1⟩, ⟨_, h2⟩, ⟨_, h3⟩, h4, h5⟩
            refine ⟨h1, h2, h3, ?_, h5⟩
            rcases h4 with h4 | h4 | h4
            · exact Or.inl h4
            · exact absurd he h4
            · exact Or.inr h4
      · by_cases hc : cellAtPos g vertical x y i = ch
        · have hLHS : fitsGo g W H vertical x y L (ch :: rest) i connect =
              fitsGo g W H vertical x y L rest (i + 1) true := by
            simp only [fitsGo, if_neg hbneg]
            rw [if_pos (by simp [he]), if_pos hc]
          rw [hLHS, ih (i + 1) true]
          constructor
          · rintro ⟨h1, h2, h3, _, h5⟩
            exact ⟨⟨hb, h1⟩, ⟨Or.inr hc, h2⟩, ⟨fun hdot => absurd hdot he, h3⟩,
              Or.inr (Or.inl he), h5⟩
          · rintro ⟨⟨_, h1⟩, ⟨_, h2⟩, ⟨_, h3⟩, _, h5⟩
            exact ⟨h1, h2, h3, Or.inl rfl, h5⟩
        · have hLHS : fitsGo g W H vertical x y L (ch :: rest) i connect = false := by
            simp only [fitsGo, if_neg hbneg]
            rw [if_pos (by simp [he]), if_neg hc]
          rw [hLHS]
          simp only [Bool.false_eq_true, false_iff]
          rintro ⟨_, ⟨h20, _⟩, _, _, _⟩
          rcases h20 with h20 | h20
          · exact he h20
          · exact hc h20
    · have hbpos : fitsPosX vertical x i < 0 ∨ (W : Int) ≤ fitsPosX vertical x i ∨
          fitsPosY vertical y i < 0 ∨ (H : Int) ≤ fitsPosY vertical y i := by
        unfold inBoundsAtP at hb
        omega
      have hLHS : fitsGo g W H vertical x y L (ch :: rest) i connect = false := by
        simp only [fitsGo, if_pos hbpos]
      rw [hLHS]
      simp only [Bool.false_eq_true, false_iff]
      rintro ⟨⟨h10, _⟩, _, _, _, _⟩
      exact hb h10

/-- Claim C2 (amended): _fits(puzzle, word, vertical, x, y) returns True
if and only if: the word contains no space character; every cell of the
word lies in bounds; each cell is EMPTY or already holds the word's
letter at that position; at every fresh (previously EMPTY) cell, both
cells perpendicular to the placement direction, when in bounds, are
EMPTY; the cell one step before the origin and the cell one step after
the word's end along the direction, when in bounds, are EMPTY; and at
least one cell of the word intersects an existing non-EMPTY cell — with
no first-word exception: the generator places its very first word through
_place_initial_word, which never consults _fits. -/
theorem fits_iff_spec (g : Grid) (W H : Nat) (word : Str) (vertical : Bool)
    (x y : Int) :
    fits g W H word vertical x y = true ↔
      fitsSpecAmended g W H word vertical x y := by
  unfold fits fitsSpecAmended
  by_cases hsp : ' ' ∈ word
  · rw [if_pos hsp]
    simp only [Bool.false_eq_true, false_iff]
    rintro ⟨hns, _⟩
    exact hns hsp
  · rw [if_neg hsp, fitsGo_iff g W H vertical x y word.length word 0 false]
    simp only [Nat.zero_add, Bool.false_eq_true, false_or]
    constructor
    · rintro ⟨h1, h2, h3, h4, h5⟩
      exact ⟨hsp, h1, h2, h3, h5, h4⟩
    · rintro ⟨_, h1, h2, h3, h5, h4⟩
      exact ⟨h1, h2, h3, h4, h5⟩

/-! ## Dictionary helper: clue-scored candidate query
(dictionary_helper.py, get_possible_words)

The dictionary index is modelled as the function from a length to the
(word, entry) pairs of word_length_index in insertion order; a length
with no entry maps to the empty list. -/

/-- A character of Python's regex class \w (ASCII model). -/
def isWordChar (c : Char) : Bool := c.isAlphanum || c = '_'

/-- re.sub(r'[^\w\s]', '', clue.lower()): lowercase the clue and drop
every character that is neither a word character nor whitespace. -/
def normalizeClue (clue : Str) : Str :=
  (pyLower clue).filter (fun c => isWordChar c || c.isWhitespace)

/-- Helper of splitWS: walk the string with the current (reversed) word. -/
def splitWSGo : Str → Str → List Str
  | [], cur => if cur = [] then [] else [cur.reverse]
  | c :: cs, cur =>
    if c.isWhitespace then
      if cur = [] then splitWSGo cs [] else cur.reverse :: splitWSGo cs []
    else splitWSGo cs (c :: cur)

/-- Python str.split(): split on whitespace runs, dropping empty pieces. -/
def splitWS (s : Str) : List Str := splitWSGo s []

/-- Keep the first occurrence of each element (Python set construction,
iterated in first-seen order). -/
def dedupFirstGo {α : Type} [DecidableEq α] : List α → List α → List α
  | _, [] => []
  | seen, w :: ws =>
    if w ∈ seen then dedupFirstGo seen ws
    else w :: dedupFirstGo (w :: seen) ws

def dedupFirst {α : Type} [DecidableEq α] (l : List α) : List α := dedupFirstGo [] l

/-- The clue token set of get_possible_words: normalized tokens that are
not blacklisted and are longer than one character. -/
def clueTokens (clue : Str) : List Str :=
  dedupFirst ((splitWS (normalizeClue clue)).filter
    (fun w => !decide (w ∈ BLACKLIST_WORDS) && decide (1 < w.length)))

/-- One scored candidate row of get_possible_words. -/
structure WordMatch where
  word : Str
  defn : Str
  relevance : Int
  speechPart : Str
deriving DecidableEq

/-- score_word_definition: 10 per clue token inside the lowercased
definition, plus 5 per clue token inside the lowercased example when the
example is non-empty, plus 2 for a noun meaning. -/
def score_word_definition (m : Meaning) (tokens : List Str) : Int :=
  10 * (tokens.countP (fun t => decide (t <:+: pyLower m.defn)) : Int) +
  (if pyLower m.usage ≠ [] then
    5 * (tokens.countP (fun t => decide (t <:+: pyLower m.usage)) : Int) else 0) +
  (if m.speechPart = "noun".toList then 2 else 0)

/-- All positively scored (word, meaning) rows across the length range,
in index order. -/
def gpwMatches (index : Nat → List (Str × Entry)) (tokens : List Str)
    (lo hi : Nat) : List WordMatch :=
  (List.range' lo (hi + 1 - lo)).flatMap (fun len =>
    (index len).flatMap (fun we =>
      we.2.meanings.filterMap (fun m =>
        if 0 < score_word_definition m tokens then
          some (WordMatch.mk (pyUpper we.1) (m.defn.take 200)
            (score_word_definition m tokens) m.speechPart)
        else none)))

/-- One step of the best_matches dictionary build: replace the entry of
the same headword when the new row scores strictly higher, insert at the
end when the headword is new. -/
def updateBest : List WordMatch → WordMatch → List WordMatch
  | [], m => [m]
  | a :: acc, m =>
    if a.word = m.word then
      (if a.relevance < m.relevance then m else a) :: acc
    else a :: updateBest acc m

/-- best_matches.values(): deduplicate by headword keeping the
best-scoring row, preserving first-seen key order. -/
def dedupBest (ms : List WordMatch) : List WordMatch := ms.foldl updateBest []

/-- Descending-relevance comparison used by every sorted(...) call of
get_possible_words (sorted with key −relevance, stable). -/
def byRelevanceGE (a b : WordMatch) : Prop := b.relevance ≤ a.relevance

instance : DecidableRel byRelevanceGE := fun a b => by
  unfold byRelevanceGE; infer_instance

instance : IsTotal WordMatch byRelevanceGE :=
  ⟨fun a b => le_total b.relevance a.relevance⟩

instance : IsTrans WordMatch byRelevanceGE :=
  ⟨fun _ _ _ h1 h2 => le_trans h2 h1⟩

/-- The clue-less branch of get_possible_words: every indexed word in the
length range, scored by _word_score plus a noun bonus, sorted by
descending score and truncated. -/
def gpwNoClue (index : Nat → List (Str × Entry)) (lo hi maxW : Nat) :
    List WordMatch :=
  (List.insertionSort byRelevanceGE
    ((List.range' lo (hi + 1 - lo)).flatMap (fun len =>
      (index len).map (fun we =>
        WordMatch.mk (pyUpper we.1)
          (match we.2.meanings with
           | [] => []
           | m :: _ => m.defn.take 200)
          (word_score we.1 +
            (if we.2.meanings.any (fun m => m.speechPart = "noun".toList)
             then 2 else 0))
          [])))).take maxW

/-- get_fallback_words: the fixed fallback rows, filtered by length. -/
def gpwFallbackList : List WordMatch :=
  [WordMatch.mk ("AGILE".toList) ("moving quickly and lightly".toList) 10 [],
   WordMatch.mk ("APT".toList)
     ("at risk of or subject to experiencing something usually unpleasant".toList) 10 [],
   WordMatch.mk ("IRA".toList)
     ("Irish Republican Army or Individual Retirement Account".toList) 10 [],
   WordMatch.mk ("REAL".toList)
     ("actually existing as a thing or occurring in fact".toList) 10 [],
   WordMatch.mk ("ACTIVE".toList) ("engaged in or ready for action".toList) 10 [],
   WordMatch.mk ("EASY".toList) ("posing no difficulty".toList) 10 [],
   WordMatch.mk ("WAN".toList) ("(of light) lacking in intensity or brightness".toList) 10 [],
   WordMatch.mk ("ABLE".toList) ("having the necessary means or skill".toList) 10 [],
   WordMatch.mk ("PYTHON".toList) ("a large snake or programming language".toList) 10 [],
   WordMatch.mk ("JAVA".toList) ("coffee or programming language".toList) 10 []]

def get_fallback_words (lo hi maxW : Nat) : List WordMatch :=
  (gpwFallbackList.filter
    (fun w => decide (lo ≤ w.word.length) && decide (w.word.length ≤ hi))).take maxW

/-- The deduplicated, sorted, truncated clue-scored result list (the
value of results before the low-yield fallback extension). -/
def gpwResults (index : Nat → List (Str × Entry)) (tokens : List Str)
    (lo hi maxW : Nat) : List WordMatch :=
  (List.insertionSort byRelevanceGE (dedupBest (gpwMatches index tokens lo hi))).take maxW

/-- DictionaryHelper.get_possible_words over the modelled index. -/
def get_possible_words (index : Nat → List (Str × Entry)) (clue : Str)
    (maxW lo hi : Nat) : List WordMatch :=
  if clue = [] then gpwNoClue index lo hi maxW
  else if clueTokens clue = [] then get_fallback_words lo hi maxW
  else if (gpwResults index (clueTokens clue) lo hi maxW).length < max 5 (maxW / 2) then
    (List.insertionSort byRelevanceGE
      (gpwResults index (clueTokens clue) lo hi maxW ++
        (gpwNoClue index lo hi maxW).take
          (maxW - (gpwResults index (clueTokens clue) lo hi maxW).length))).take maxW
  else gpwResults index (clueTokens clue) lo hi maxW

/-- A one-word dictionary used to exhibit the fallback duplication. -/
def gpwExampleIndex : Nat → List (Str × Entry) := fun n =>
  if n = 3 then
    [(("cat".toList),
      Entry.mk [Meaning.mk ("feline pet animal".toList) ("noun".toList) []])]
  else []

theorem mem_updateBest {acc : List WordMatch} {m a : WordMatch}
    (h : a ∈ updateBest acc m) : a ∈ acc ∨ a = m := by
  induction acc with
  | nil => simpa [updateBest] using h
  | cons b acc ih =>
    unfold updateBest at h
    by_cases hw : b.word = m.word
    · rw [if_pos hw] at h
      rcases List.mem_cons.mp h with h | h
      · by_cases hr : b.relevance < m.relevance
        · rw [if_pos hr] at h; exact Or.inr h
        · rw [if_neg hr] at h; exact Or.inl (by simp [h])
      · exact Or.inl (by simp [h])
    · rw [if_neg hw] at h
      rcases List.mem_cons.mp h with h | h
      · exact Or.inl (by simp [h])
      · rcases ih h with h | h
        · exact Or.inl (by simp [h])
        · exact Or.inr h

theorem updateBest_words_sub {acc : List WordMatch} {m : WordMatch} {w : Str}
    (h : w ∈ (updateBest acc m).map (fun a => a.word)) :
    w ∈ acc.map (fun a => a.word) ∨ w = m.word := by
  obtain ⟨a, ha, rfl⟩ := List.mem_map.mp h
  rcases mem_updateBest ha with h | rfl
  · exact Or.inl (List.mem_map_of_mem _ h)
  · exact Or.inr rfl

theorem updateBest_nodup {acc : List WordMatch} {m : WordMatch}
    (h : (acc.map (fun a => a.word)).Nodup) :
    ((updateBest acc m).map (fun a => a.word)).Nodup := by
  induction acc with
  | nil => simp [updateBest]
  | cons b acc ih =>
    simp only [List.map_cons, List.nodup_cons] at h
    obtain ⟨hb, hacc⟩ := h
    unfold updateBest
    by_cases hw : b.word = m.word
    · rw [if_pos hw]
      by_cases hr : b.relevance < m.relevance
      · rw [if_pos hr]
        simp only [List.map_cons, List.nodup_cons]
        exact ⟨hw ▸ hb, hacc⟩
      · rw [if_neg hr]
        simp only [List.map_cons, List.nodup_cons]
        exact ⟨hb, hacc⟩
    · rw [if_neg hw]
      simp only [List.map_cons, List.nodup_cons]
      refine ⟨fun hc => ?_, ih hacc⟩
      rcases updateBest_words_sub hc with hc | hc
      · exact hb hc
      · exact hw hc

theorem updateBest_dominates_new (acc : List WordMatch) (m : WordMatch) :
    ∃ a ∈ updateBest acc m, a.word = m.word ∧ m.relevance ≤ a.relevance := by
  induction acc with
  | nil => exact ⟨m, by simp [updateBest], rfl, le_refl _⟩
  | cons b acc ih =>
    unfold updateBest
    by_cases hw : b.word = m.word
    · rw [if_pos hw]
      by_cases hr : b.relevance < m.relevance
      · rw [if_pos hr]
        exact ⟨m, by simp, rfl, le_refl _⟩
      · rw [if_neg hr]
        exact ⟨b, by simp, hw, by omega⟩
    · rw [if_neg hw]
      obtain ⟨a, ha, h1, h2⟩ := ih
      exact ⟨a, List.mem_cons_of_mem _ ha, h1, h2⟩

theorem updateBest_dominates_old {acc : List WordMatch} {a0 : WordMatch}
    (m : WordMatch) (h : a0 ∈ acc) :
    ∃ a ∈ updateBest acc m, a.word = a0.word ∧ a0.relevance ≤ a.relevance := by
  induction acc with
  | nil => simp at h
  | cons b acc ih =>
    unfold updateBest
    by_cases hw : b.word = m.word
    · rw [if_pos hw]
      rcases List.mem_cons.mp h with rfl | h
      · by_cases hr : a0.relevance < m.relevance
        · rw [if_pos hr]
          exact ⟨m, by simp, hw.symm, by omega⟩
        · rw [if_neg hr]
          exact ⟨a0, by simp, rfl, le_refl _⟩
      · refine ⟨a0, ?_, rfl, le_refl _⟩
        by_cases hr : b.relevance < m.relevance
        · rw [if_pos hr]; exact List.mem_cons_of_mem _ h
        · rw [if_neg hr]; exact List.mem_cons_of_mem _ h
    · rw [if_neg hw]
      rcases List.mem_cons.mp h with rfl | h
      · exact ⟨a0, by simp, rfl, le_refl _⟩
      · obtain ⟨a, ha, h1, h2⟩ := ih h
        exact ⟨a, List.mem_cons_of_mem _ ha, h1, h2⟩

theorem dedupBest_fold_spec :
    ∀ (ms acc : List WordMatch), (acc.map (fun a => a.word)).Nodup →
      (((ms.foldl updateBest acc).map (fun a => a.word)).Nodup ∧
       (∀ a ∈ ms.foldl updateBest acc, a ∈ acc ∨ a ∈ ms) ∧
       (∀ a0 ∈ acc, ∃ a ∈ ms.foldl updateBest acc,
         a.word = a0.word ∧ a0.relevance ≤ a.relevance) ∧
       (∀ m ∈ ms, ∃ a ∈ ms.foldl updateBest acc,
         a.word = m.word ∧ m.relevance ≤ a.relevance)) := by
  intro ms
  induction ms with
  | nil =>
    intro acc h
    exact ⟨h, fun a ha => Or.inl ha,
      fun a0 h0 => ⟨a0, h0, rfl, le_refl _⟩, by simp⟩
  | cons m ms ih =>
    intro acc h
    obtain ⟨ihN, ihP, ihO, ihM⟩ := ih (updateBest acc m) (updateBest_nodup h)
    rw [List.foldl_cons]
    refine ⟨ihN, ?_, ?_, ?_⟩
    · intro a ha
      rcases ihP a ha with ha2 | ha2
      · rcases mem_updateBest ha2 with h3 | h3
        · exact Or.inl h3
        · exact Or.inr (by simp [h3])
      · exact Or.inr (by simp [ha2])
    · intro a0 h0
      obtain ⟨b, hb, h1, h2⟩ := updateBest_dominates_old m h0
      obtain ⟨a, ha, h3, h4⟩ := ihO b hb
      exact ⟨a, ha, h3.trans h1, h2.trans h4⟩
    · intro m' hm'
      rcases List.mem_cons.mp hm' with rfl | hm'
      · obtain ⟨b, hb, h1, h2⟩ := updateBest_dominates_new acc m'
        obtain ⟨a, ha, h3, h4⟩ := ihO b hb
        exact ⟨a, ha, h3.trans h1, h2.trans h4⟩
      · exact ihM m' hm'

theorem gpwMatches_pos (index : Nat → List (Str × Entry)) (tokens : List Str)
    (lo hi : Nat) : ∀ m ∈ gpwMatches index tokens lo hi, 0 < m.relevance := by
  intro m hm
  simp only [gpwMatches, List.mem_flatMap, List.mem_filterMap] at hm
  obtain ⟨len, _, we, _, mn, _, hif⟩ := hm
  by_cases hsc : 0 < score_word_definition mn tokens
  · rw [if_pos hsc] at hif
    cases hif
    exact hsc
  · rw [if_neg hsc] at hif
    cases hif

/-- Claim C5 (amended): for every non-empty clue whose token set is
non-empty, provided the deduplicated clue-scored result list reaches the
low-yield threshold max(5, max_words/2) (so that no fallback rows are
appended), get_possible_words returns exactly the clue-scored results:
every returned entry has positive relevance, headwords are pairwise
distinct, the list is sorted by descending relevance, and each entry is
one of the scored (entry, meaning) rows carrying the maximal relevance
over all rows of that headword; when the threshold is not reached the
code appends rows from the clue-less query, which may repeat headwords. -/
theorem get_possible_words_amended (index : Nat → List (Str × Entry))
    (clue : Str) (maxW lo hi : Nat)
    (htok : clueTokens clue ≠ [])
    (henough : max 5 (maxW / 2) ≤ (gpwResults index (clueTokens clue) lo hi maxW).length) :
    get_possible_words index clue maxW lo hi =
      gpwResults index (clueTokens clue) lo hi maxW ∧
    (∀ m ∈ gpwResults index (clueTokens clue) lo hi maxW, 0 < m.relevance) ∧
    ((gpwResults index (clueTokens clue) lo hi maxW).map (fun a => a.word)).Nodup ∧
    List.Pairwise byRelevanceGE (gpwResults index (clueTokens clue) lo hi maxW) ∧
    (∀ m ∈ gpwResults index (clueTokens clue) lo hi maxW,
      m ∈ gpwMatches index (clueTokens clue) lo hi ∧
      ∀ m' ∈ gpwMatches index (clueTokens clue) lo hi,
        m'.word = m.word → m'.relevance ≤ m.relevance) := by
  have hclue : ¬(clue = []) := by
    intro hc
    subst hc
    exact htok (by decide)
  have hmain : get_possible_words index clue maxW lo hi =
      gpwResults index (clueTokens clue) lo hi maxW := by
    unfold get_possible_words
    rw [if_neg hclue, if_neg htok, if_neg (by omega)]
  obtain ⟨hN, hP, _, hM⟩ := dedupBest_fold_spec
    (gpwMatches index (clueTokens clue) lo hi) [] (by simp)
  have hperm := List.perm_insertionSort byRelevanceGE
    (dedupBest (gpwMatches index (clueTokens clue) lo hi))
  have hmemDedup : ∀ m ∈ gpwResults index (clueTokens clue) lo hi maxW,
      m ∈ dedupBest (gpwMatches index (clueTokens clue) lo hi) := by
    intro m hm
    exact hperm.mem_iff.mp (List.mem_of_mem_take hm)
  have hmemMatches : ∀ m ∈ gpwResults index (clueTokens clue) lo hi maxW,
      m ∈ gpwMatches index (clueTokens clue) lo hi := by
    intro m hm
    rcases hP m (hmemDedup m hm) with h | h
    · simp at h
    · exact h
  refine ⟨hmain, ?_, ?_, ?_, ?_⟩
  · intro m hm
    exact gpwMatches_pos index (clueTokens clue) lo hi m (hmemMatches m hm)
  · have hsortedN : ((List.insertionSort byRelevanceGE
        (dedupBest (gpwMatches index (clueTokens clue) lo hi))).map
        (fun a => a.word)).Nodup :=
      ((hperm.map (fun a => a.word)).nodup_iff).mpr hN
    unfold gpwResults
    rw [List.map_take]
    exact List.Nodup.sublist (List.take_sublist _ _) hsortedN
  · have hsorted := List.sorted_insertionSort byRelevanceGE
      (dedupBest (gpwMatches index (clueTokens clue) lo hi))
    exact List.Pairwise.sublist (List.take_sublist _ _) hsorted
  · intro m hm
    refine ⟨hmemMatches m hm, fun m' hm' hw => ?_⟩
    obtain ⟨a, ha, h1, h2⟩ := hM m' hm'
    have : a = m := List.inj_on_of_nodup_map hN ha (hmemDedup m hm) (h1.trans hw)
    rw [this] at h2
    exact h2

/-- A five-word dictionary in which the clue-scored results reach the
low-yield threshold, used to instantiate the amended theorem. -/
def gpwWitnessIndex : Nat → List (Str × Entry) := fun n =>
  if n = 3 then
    [(("cat".toList), Entry.mk [Meaning.mk ("a pet".toList) ("noun".toList) []]),
     (("dog".toList), Entry.mk [Meaning.mk ("a pet".toList) ("noun".toList) []]),
     (("rat".toList), Entry.mk [Meaning.mk ("a pet".toList) ("noun".toList) []]),
     (("bat".toList), Entry.mk [Meaning.mk ("a pet".toList) ("noun".toList) []]),
     (("fox".toList), Entry.mk [Meaning.mk ("a pet".toList) ("noun".toList) []])]
  else []

/-- Claim C5 (witness for the amended theorem): evaluated on the concrete
five-word dictionary with the clue "pet pal" and max_words = 10. -/
theorem get_possible_words_amended_witness :
    clueTokens ("pet pal".toList) ≠ [] ∧
    max 5 (10 / 2) ≤
      (gpwResults gpwWitnessIndex (clueTokens ("pet pal".toList)) 3 12 10).length ∧
    get_possible_words gpwWitnessIndex ("pet pal".toList) 10 3 12 =
      gpwResults gpwWitnessIndex (clueTokens ("pet pal".toList)) 3 12 10 :=
  ⟨by decide, by decide,
   (get_possible_words_amended gpwWitnessIndex ("pet pal".toList) 10 3 12
     (by decide) (by decide)).1⟩

/-- Claim C5 (counterexample): on a dictionary holding the single word
"cat" with one noun meaning "feline pet animal" and the clue
"feline pet", the single clue match CAT (relevance 22) falls below the
low-yield threshold max(5, max_words/2), so get_possible_words appends
fallback rows from the clue-less query and returns CAT twice (relevance
27 from _word_score plus noun bonus, then 22): the returned list is not
deduplicated by headword. -/
theorem get_possible_words_claim_refuted :
    ((get_possible_words gpwExampleIndex ("feline pet".toList) 100 3 12).map
      (fun m => m.word)) = ["CAT".toList, "CAT".toList] ∧
    ¬ ((get_possible_words gpwExampleIndex ("feline pet".toList) 100 3 12).map
      (fun m => m.word)).Nodup := by
  constructor
  · decide
  · decide

/-! ## DFS solver: candidate collection, fallback ladder and search
(dfs_solver.py, solve / _get_all_slot_candidates /
_get_constrained_candidates / _attempt_fallback_for_slot /
_optimized_dfs, and base_solver.py, _create_result)

The dictionary helper is an injected dependency of DFSSolver, so its
query methods are fields of the configuration; the ConstraintChecker and
the slot graph are built by solver.core modules that are not among the
sources, so the checker verdict and the graph adjacency are fields too. -/

structure DFSConfig where
  grid : Grid
  slots : List Slot
  exactClueWord : Str → Option Str
  clueForWord : Str → Str
  possibleWords : Str → Nat → Nat → List Str
  possibleWordsNoClue : Nat → Nat → List Str
  spellingVariants : Str → List Str
  patternWords : Str → Str → Nat → List Str
  checker : Grid → Slot → Str → Bool
  slotGraphAdj : Nat × String → List (Nat × String)

/-- The grid part of DFSSolver._word_fits: every cell of the word in
bounds (width read from row 0, as in the source) and EMPTY or equal to
the word's letter. -/
def word_fits_basic (g : Grid) (s : Slot) (w : Str) : Bool :=
  (List.range w.length).all (fun i =>
    decide (slotCellY s i < g.length) &&
    decide (slotCellX s i < (g.getD 0 []).length) &&
    (decide (cellAt g (slotCellX s i) (slotCellY s i) = '.') ||
     decide (cellAt g (slotCellX s i) (slotCellY s i) = w.getD i ' ')))

/-- DFSSolver._word_fits: the grid check plus the ConstraintChecker
verdict (check_word_fits and check_perpendicular_constraints, modelled by
the injected checker since solver.core.constraints is not among the
sources). -/
def word_fits (cfg : DFSConfig) (g : Grid) (s : Slot) (w : Str) : Bool :=
  word_fits_basic g s w && cfg.checker g s w

/-- DFSSolver._get_slot_pattern: current slot contents with '#' outside
the grid. -/
def get_slot_pattern (g : Grid) (s : Slot) : Str :=
  (List.range s.length).map (fun i =>
    if slotCellY s i < g.length ∧ slotCellX s i < (g.getD 0 []).length then
      cellAt g (slotCellX s i) (slotCellY s i)
    else '#')

/-- DFSSolver._get_constrained_candidates: exact clue match, then the
slot's provided answer when its dictionary clue matches, then the by-clue
query with max_words 1000, all uppercased, length- and fit-filtered,
deduplicated keeping the first occurrence. -/
def get_constrained_candidates (cfg : DFSConfig) (g : Grid) (s : Slot) : List Str :=
  dedupFirst (
    (match cfg.exactClueWord s.clue with
     | some w =>
       if w.length = s.length then
         (if word_fits cfg g s (pyUpper w) then [pyUpper w] else [])
       else []
     | none => []) ++
    ((match cfg.exactClueWord s.clue with
      | some w =>
        if w.length = s.length ∧ word_fits cfg g s (pyUpper w) then []
        else
          (if s.answer ≠ [] ∧ pyLower (cfg.clueForWord s.answer) = pyLower s.clue ∧
              (pyUpper s.answer).length = s.length ∧
              word_fits cfg g s (pyUpper s.answer)
           then [pyUpper s.answer] else [])
      | none =>
        (if s.answer ≠ [] ∧ pyLower (cfg.clueForWord s.answer) = pyLower s.clue ∧
            (pyUpper s.answer).length = s.length ∧
            word_fits cfg g s (pyUpper s.answer)
         then [pyUpper s.answer] else [])) ++
     (cfg.possibleWords s.clue 1000 s.length).filterMap (fun w =>
       if w = [] then none
       else if (pyUpper w).length = s.length ∧ word_fits cfg g s (pyUpper w)
       then some (pyUpper w) else none)))

/-- The push_word filter of _attempt_fallback_for_slot applied to a raw
word list: drop empties, uppercase, keep exact-length fitting words,
first occurrence each. -/
def push_filter (cfg : DFSConfig) (g : Grid) (s : Slot) (ws : List Str) : List Str :=
  dedupFirst (ws.filterMap (fun w =>
    if w = [] then none
    else if (pyUpper w).length = s.length ∧ word_fits cfg g s (pyUpper w)
    then some (pyUpper w) else none))

/-- Lexicographic comparison of words (Python string order, ASCII). -/
def strLeB : Str → Str → Bool
  | [], _ => true
  | _ :: _, [] => false
  | a :: xs, b :: ys => if a < b then true else if a = b then strLeB xs ys else false

/-- Ordering of the heuristic fallback's (score, word) pairs: Python
sorts ascending by (−score, word). -/
def scoredGE (a b : Nat × Str) : Prop :=
  b.1 < a.1 ∨ (a.1 = b.1 ∧ strLeB a.2 b.2 = true)

instance : DecidableRel scoredGE := fun a b => by
  unfold scoredGE; infer_instance

/-- DFSSolver._attempt_fallback_for_slot: spelling variants of the
answer, then the broadened by-clue query (max_words 5000), then the
pattern lookup, then the heuristic same-length pool scored by matching
fixed positions; the first level producing any fitting candidate wins. -/
def attempt_fallback_for_slot (cfg : DFSConfig) (g : Grid) (s : Slot) : List Str :=
  if (if s.answer ≠ [] then push_filter cfg g s (cfg.spellingVariants s.answer)
      else []) ≠ [] then
    (if s.answer ≠ [] then push_filter cfg g s (cfg.spellingVariants s.answer) else [])
  else if push_filter cfg g s (cfg.possibleWords s.clue 5000 s.length) ≠ [] then
    push_filter cfg g s (cfg.possibleWords s.clue 5000 s.length)
  else if (if get_slot_pattern g s ≠ [] then
      push_filter cfg g s (cfg.patternWords (get_slot_pattern g s) s.clue 2000)
    else []) ≠ [] then
    (if get_slot_pattern g s ≠ [] then
      push_filter cfg g s (cfg.patternWords (get_slot_pattern g s) s.clue 2000)
    else [])
  else
    push_filter cfg g s
      (((List.insertionSort scoredGE
        ((cfg.possibleWordsNoClue 5000 s.length).filterMap (fun w =>
          if w = [] then none
          else if (pyUpper w).length ≠ s.length then none
          else if 0 < (((List.range (get_slot_pattern g s).length).filter
              (fun i => (get_slot_pattern g s).getD i '#' ≠ '.')).filter
              (fun i => (get_slot_pattern g s).getD i '#' =
                (pyUpper w).getD i ' ')).length
          then some ((((List.range (get_slot_pattern g s).length).filter
              (fun i => (get_slot_pattern g s).getD i '#' ≠ '.')).filter
              (fun i => (get_slot_pattern g s).getD i '#' =
                (pyUpper w).getD i ' ')).length, pyUpper w)
          else none))).take 200).map (fun p => p.2))

/-- _get_constrained_candidates result, or the fallback ladder when it is
empty (the per-slot step of _get_all_slot_candidates). -/
def candidates_for_slot (cfg : DFSConfig) (g : Grid) (s : Slot) : List Str :=
  if get_constrained_candidates cfg g s = [] then attempt_fallback_for_slot cfg g s
  else get_constrained_candidates cfg g s

/-- DFSSolver._get_all_slot_candidates: collect per-slot candidates in
slot order, aborting (none) as soon as a slot keeps zero candidates after
the fallback ladder. -/
def collect_candidates (cfg : DFSConfig) (g : Grid) :
    List Slot → Option (List (Slot × List Str))
  | [] => some []
  | s :: rest =>
    if candidates_for_slot cfg g s = [] then none
    else match collect_candidates cfg g rest with
      | none => none
      | some cs => some ((s, candidates_for_slot cfg g s) :: cs)

/-- DFSSolver._get_slot_constraint_level via the slot graph adjacency. -/
def get_slot_constraint_level (cfg : DFSConfig) (s : Slot) : Nat :=
  (cfg.slotGraphAdj (slotKey s)).length

/-- The slot ordering key of solve: ascending candidate count, then
descending constraint degree (Python sorts by (len, −degree), stable). -/
def slotOrderLE (cfg : DFSConfig) (a b : Slot × List Str) : Prop :=
  a.2.length < b.2.length ∨ (a.2.length = b.2.length ∧
    get_slot_constraint_level cfg b.1 ≤ get_slot_constraint_level cfg a.1)

instance (cfg : DFSConfig) : DecidableRel (slotOrderLE cfg) := fun a b => by
  unfold slotOrderLE; infer_instance

def sort_slot_candidates (cfg : DFSConfig) (scs : List (Slot × List Str)) :
    List (Slot × List Str) :=
  List.insertionSort (slotOrderLE cfg) scs

/-- DFSSolver._get_affected_slots: for every neighbour of the placed slot
in the slot graph, the first index of slot_candidates carrying it. -/
def get_affected_slots (cfg : DFSConfig) (scs : List (Slot × List Str))
    (s : Slot) : List Nat :=
  (cfg.slotGraphAdj (slotKey s)).filterMap (fun k =>
    scs.findIdx? (fun sc => slotKey sc.1 = k))

/-- DFSSolver._check_forward_constraints: every affected slot still has a
constrained candidate on the current grid. -/
def check_forward_constraints (cfg : DFSConfig) (scs : List (Slot × List Str))
    (g : Grid) (idxs : List Nat) : Bool :=
  idxs.all (fun idx =>
    match scs[idx]? with
    | none => true
    | some sc => !(get_constrained_candidates cfg g sc.1).isEmpty)

/-- The forward check run after placing at index k: only affected indices
beyond k are re-checked. -/
def forward_check_after (cfg : DFSConfig) (scs : List (Slot × List Str))
    (s : Slot) (k : Nat) (g : Grid) : Bool :=
  check_forward_constraints cfg scs g
    ((get_affected_slots cfg scs s).filter (fun idx => k < idx))

/-- The candidate loop of _optimized_dfs for one slot: try each word that
still fits; place it, forward-check, recurse, and remove the placed
positions when the attempt fails. -/
def dfs_words (fitF : Grid → Str → Bool) (fcF : Grid → Bool)
    (recurse : Grid → Bool × Grid) (s : Slot) : List Str → Grid → Bool × Grid
  | [], g => (false, g)
  | w :: ws, g =>
    if fitF g w then
      if fcF (place_word g s w).1 then
        match recurse (place_word g s w).1 with
        | (true, g2) => (true, g2)
        | (false, g2) =>
          dfs_words fitF fcF recurse s ws (remove_word g2 (place_word g s w).2)
      else
        dfs_words fitF fcF recurse s ws
          (remove_word (place_word g s w).1 (place_word g s w).2)
    else dfs_words fitF fcF recurse s ws g

/-- DFSSolver._optimized_dfs over the remaining slot candidates, with k
the absolute index into the full (sorted) list scs. -/
def dfs_slots (cfg : DFSConfig) (scs : List (Slot × List Str)) :
    List (Slot × List Str) → Nat → Grid → Bool × Grid
  | [], _, g => (true, g)
  | (s, cands) :: rest, k, g =>
    dfs_words (fun g2 w => word_fits cfg g2 s w)
      (forward_check_after cfg scs s k)
      (dfs_slots cfg scs rest (k + 1))
      s cands g

/-- DFSSolver._count_filled_words. -/
def count_filled_words (g : Grid) (slots : List Slot) : Nat :=
  (slots.filter (fun s => (List.range s.length).all
    (fun i => !decide (cellAt g (slotCellX s i) (slotCellY s i) = '.')))).length

/-- The cell normalization of BaseCrosswordSolver: spaces and dots both
become EMPTY; applied to the input in __init__ and again to the solution
in _create_result. -/
def normCell (c : Char) : Char := if c = ' ' ∨ c = '.' then '.' else c

def normalize_grid (g : Grid) : Grid := g.map (fun row => row.map normCell)

/-- The solver result object (_create_result), restricted to its
data fields; the wall-clock and memory metrics are not modelled. -/
structure SolveResult where
  status : String
  grid : Grid
  wordsPlaced : Nat
  totalWords : Nat
deriving DecidableEq

/-- BaseCrosswordSolver._create_result: status success iff the search
succeeded, else partial, with the formatted solution grid. -/
def create_result (success : Bool) (g : Grid) (wp tw : Nat) : SolveResult :=
  SolveResult.mk (if success then "success" else "partial")
    (normalize_grid g) wp tw

/-- DFSSolver.solve: normalize the input grid, return success on an empty
slot list, abort with a partial result when candidate collection fails,
otherwise sort the slot candidates and run the DFS. -/
def solve_dfs (cfg : DFSConfig) : SolveResult :=
  if cfg.slots = [] then create_result true (normalize_grid cfg.grid) 0 0
  else
    match collect_candidates cfg (normalize_grid cfg.grid) cfg.slots with
    | none => create_result false (normalize_grid cfg.grid) 0 cfg.slots.length
    | some scs =>
      create_result
        (dfs_slots cfg (sort_slot_candidates cfg scs) (sort_slot_candidates cfg scs)
          0 (normalize_grid cfg.grid)).1
        (dfs_slots cfg (sort_slot_candidates cfg scs) (sort_slot_candidates cfg scs)
          0 (normalize_grid cfg.grid)).2
        (count_filled_words
          (dfs_slots cfg (sort_slot_candidates cfg scs) (sort_slot_candidates cfg scs)
            0 (normalize_grid cfg.grid)).2 cfg.slots)
        cfg.slots.length

theorem normCell_idem (c : Char) : normCell (normCell c) = normCell c := by
  unfold normCell
  by_cases h : c = ' ' ∨ c = '.'
  · rw [if_pos h]; simp
  · rw [if_neg h, if_neg h]

theorem normalize_grid_idem (g : Grid) :
    normalize_grid (normalize_grid g) = normalize_grid g := by
  unfold normalize_grid
  simp only [List.map_map, List.map_inj_left]
  intro row _
  simp only [Function.comp_def, List.map_map, List.map_inj_left]
  intro c _
  exact normCell_idem c

theorem place_word_roundtrip (g : Grid) (s : Slot) (w : Str) :
    remove_word (place_word g s w).1 (place_word g s w).2 = g :=
  (place_from_spec s w g 0).2.1

theorem dfs_words_restore (fitF : Grid → Str → Bool) (fcF : Grid → Bool)
    (recurse : Grid → Bool × Grid) (s : Slot)
    (hrec : ∀ g, (recurse g).1 = false → (recurse g).2 = g) :
    ∀ (ws : List Str) (g : Grid), (dfs_words fitF fcF recurse s ws g).1 = false →
      (dfs_words fitF fcF recurse s ws g).2 = g := by
  intro ws
  induction ws with
  | nil => intro g _; rfl
  | cons w ws ih =>
    intro g hfalse
    rw [dfs_words.eq_2] at hfalse ⊢
    by_cases hfit : fitF g w = true
    · rw [if_pos hfit] at hfalse ⊢
      by_cases hfc : fcF (place_word g s w).1 = true
      · rw [if_pos hfc] at hfalse ⊢
        rcases hr : recurse (place_word g s w).1 with ⟨b, g2⟩
        rw [hr] at hfalse
        cases b
        · have hg2 : g2 = (place_word g s w).1 := by
            have h3 := hrec (place_word g s w).1
            rw [hr] at h3
            exact h3 rfl
          change (dfs_words fitF fcF recurse s ws
            (remove_word g2 (place_word g s w).2)).1 = false at hfalse
          change (dfs_words fitF fcF recurse s ws
            (remove_word g2 (place_word g s w).2)).2 = g
          rw [hg2, place_word_roundtrip] at hfalse ⊢
          exact ih g hfalse
        · change (true : Bool) = false at hfalse
          cases hfalse
      · rw [if_neg hfc] at hfalse ⊢
        rw [place_word_roundtrip] at hfalse ⊢
        exact ih g hfalse
    · rw [if_neg hfit] at hfalse ⊢
      exact ih g hfalse

theorem dfs_slots_restore (cfg : DFSConfig) (scs : List (Slot × List Str)) :
    ∀ (l : List (Slot × List Str)) (k : Nat) (g : Grid),
      (dfs_slots cfg scs l k g).1 = false → (dfs_slots cfg scs l k g).2 = g := by
  intro l
  induction l with
  | nil =>
    intro k g h
    simp [dfs_slots] at h
  | cons sc rest ih =>
    intro k g h
    obtain ⟨s, cands⟩ := sc
    exact dfs_words_restore _ _ _ _ (fun g2 => ih (k + 1) g2) cands g h

theorem solve_dfs_none (cfg : DFSConfig) (hne : ¬(cfg.slots = []))
    (hcol : collect_candidates cfg (normalize_grid cfg.grid) cfg.slots = none) :
    solve_dfs cfg =
      create_result false (normalize_grid cfg.grid) 0 cfg.slots.length := by
  unfold solve_dfs
  rw [if_neg hne, hcol]

theorem solve_dfs_some (cfg : DFSConfig) (scs : List (Slot × List Str))
    (hne : ¬(cfg.slots = []))
    (hcol : collect_candidates cfg (normalize_grid cfg.grid) cfg.slots = some scs) :
    solve_dfs cfg =
      create_result
        (dfs_slots cfg (sort_slot_candidates cfg scs) (sort_slot_candidates cfg scs)
          0 (normalize_grid cfg.grid)).1
        (dfs_slots cfg (sort_slot_candidates cfg scs) (sort_slot_candidates cfg scs)
          0 (normalize_grid cfg.grid)).2
        (count_filled_words
          (dfs_slots cfg (sort_slot_candidates cfg scs) (sort_slot_candidates cfg scs)
            0 (normalize_grid cfg.grid)).2 cfg.slots)
        cfg.slots.length := by
  unfold solve_dfs
  rw [if_neg hne, hcol]

/-- Claim C9: whenever the DFS search is exhausted without a solution —
whenever solve returns a partial result, whether because candidate
collection aborted (which never touches the grid) or because
_optimized_dfs(0) returned False after candidates were collected for
every slot — every placement made during the search has been undone, and
the solution grid in the returned result is cell-for-cell the normalized
input grid (spaces and dots both mapped to EMPTY). -/
theorem solve_dfs_partial_grid (cfg : DFSConfig)
    (h : (solve_dfs cfg).status = "partial") :
    (solve_dfs cfg).grid = normalize_grid cfg.grid := by
  by_cases hs : cfg.slots = []
  · unfold solve_dfs at h
    rw [if_pos hs] at h
    simp [create_result] at h
  · cases hcol : collect_candidates cfg (normalize_grid cfg.grid) cfg.slots with
    | none =>
      rw [solve_dfs_none cfg hs hcol]
      simp [create_result, normalize_grid_idem]
    | some scs =>
      rw [solve_dfs_some cfg scs hs hcol] at h ⊢
      rcases hrun : dfs_slots cfg (sort_slot_candidates cfg scs)
          (sort_slot_candidates cfg scs) 0 (normalize_grid cfg.grid) with ⟨b, g2⟩
      rw [hrun] at h
      cases b
      · have hg2 : g2 = normalize_grid cfg.grid := by
          have h3 := dfs_slots_restore cfg (sort_slot_candidates cfg scs)
            (sort_slot_candidates cfg scs) 0 (normalize_grid cfg.grid)
          rw [hrun] at h3
          exact h3 rfl
        simp [create_result, hg2, normalize_grid_idem]
      · simp [create_result] at h

theorem collect_candidates_none (cfg : DFSConfig) (g : Grid) :
    ∀ (l : List Slot) (s : Slot), s ∈ l → candidates_for_slot cfg g s = [] →
      collect_candidates cfg g l = none := by
  intro l
  induction l with
  | nil => intro s hs; simp at hs
  | cons a rest ih =>
    intro s hs hempty
    rcases List.mem_cons.mp hs with rfl | hs
    · unfold collect_candidates
      rw [if_pos hempty]
    · unfold collect_candidates
      by_cases ha : candidates_for_slot cfg g a = []
      · rw [if_pos ha]
      · rw [if_neg ha, ih s hs hempty]

/-- Claim C3: whenever some slot has zero candidates after the full
fallback ladder (exact-clue match, provided answer, broadened by-clue
query, pattern lookup, heuristic same-length pool), candidate collection
aborts and solve returns a well-formed result object with status
"partial", the normalized input grid, zero words placed and the slot
total; in the embedding solve is a total function, matching the source's
policy of catching helper exceptions locally rather than propagating
them. -/
theorem solve_dfs_no_candidates (cfg : DFSConfig)
    (h : ∃ s ∈ cfg.slots,
      get_constrained_candidates cfg (normalize_grid cfg.grid) s = [] ∧
      attempt_fallback_for_slot cfg (normalize_grid cfg.grid) s = []) :
    (solve_dfs cfg).status = "partial" ∧
    (solve_dfs cfg).grid = normalize_grid cfg.grid ∧
    (solve_dfs cfg).wordsPlaced = 0 ∧
    (solve_dfs cfg).totalWords = cfg.slots.length := by
  obtain ⟨s, hs, h1, h2⟩ := h
  have hne : ¬(cfg.slots = []) := by
    intro hc
    rw [hc] at hs
    simp at hs
  have hcand : candidates_for_slot cfg (normalize_grid cfg.grid) s = [] := by
    unfold candidates_for_slot
    rw [if_pos h1]
    exact h2
  have hcol := collect_candidates_none cfg (normalize_grid cfg.grid) cfg.slots s hs hcand
  unfold solve_dfs
  rw [if_neg hne, hcol]
  exact ⟨rfl, by simp [create_result, normalize_grid_idem], rfl, rfl⟩

/-- A configuration whose only slot has an exhausted candidate ladder:
every dictionary query is empty. -/
def dfsWitnessCfg : DFSConfig :=
  DFSConfig.mk [['.', '.']] [Slot.mk 1 "across" 0 0 2 ("x".toList) []]
    (fun _ => none) (fun _ => []) (fun _ _ _ => []) (fun _ _ => [])
    (fun _ => []) (fun _ _ _ => []) (fun _ _ _ => true) (fun _ => [])

/-- Claim C9 (witness): the restoration theorem evaluated on the concrete
exhausted configuration. -/
theorem solve_dfs_partial_grid_witness :
    (solve_dfs dfsWitnessCfg).status = "partial" ∧
    (solve_dfs dfsWitnessCfg).grid = normalize_grid dfsWitnessCfg.grid :=
  ⟨by decide, solve_dfs_partial_grid dfsWitnessCfg (by decide)⟩

/-- Claim C3 (witness): the no-candidates theorem evaluated on the
concrete exhausted configuration. -/
theorem solve_dfs_no_candidates_witness :
    (get_constrained_candidates dfsWitnessCfg (normalize_grid dfsWitnessCfg.grid)
        (Slot.mk 1 "across" 0 0 2 ("x".toList) []) = [] ∧
      attempt_fallback_for_slot dfsWitnessCfg (normalize_grid dfsWitnessCfg.grid)
        (Slot.mk 1 "across" 0 0 2 ("x".toList) []) = []) ∧
    (solve_dfs dfsWitnessCfg).status = "partial" ∧
    (solve_dfs dfsWitnessCfg).wordsPlaced = 0 :=
  ⟨⟨by decide, by decide⟩,
   (solve_dfs_no_candidates dfsWitnessCfg
     ⟨Slot.mk 1 "across" 0 0 2 ("x".toList) [], by decide, by decide, by decide⟩).1,
   (solve_dfs_no_candidates dfsWitnessCfg
     ⟨Slot.mk 1 "across" 0 0 2 ("x".toList) [], by decide, by decide, by decide⟩).2.2.1⟩

end CW
